import Mathlib

/-!
# Machine agent supervision loop and cloud listing order

Shallow embedding of

* `cmd/jujud/machine.go`: `MachineAgent.Stop`, `MachineAgent.Run`,
  `MachineAgent.runOnce`;
* `cmd/juju/cloud/list.go`: `cloudSourceOrder` and the sort performed by
  `formatCloudsTabular`;
* `cmd/context.go`: `Context.AbsPath` and `Main`.

`MachineAgent.Run` is a sequential loop whose only state is the agent's
lifecycle handle (`a.tomb`).  Everything the loop cannot decide by itself is
supplied by a schedule: for each cycle, the answers of the collaborators
(`state.Open`, `st.Machine`, `runTasks`, `environs.ChangeAgentTools`), the
`Kill` calls made on the handle by other goroutines (between the loop-head
read of the handle and the call of `runOnce`, while `runOnce` is in flight, and
until the `select` is resolved), and the branch the `select` takes when both
of its cases are ready.  A `Kill` that lands after the timer case has been
taken and before the loop head reads the handle again acts on `Run` as one
that lands just before the `select` with the timer case taken.

`Run` runs on the handle of package `launchpad.net/tomb`, whose `Kill` records
the first non-nil error (`Tomb.tombKill`); the handle as the specification
describes it, whose `Kill` keeps the error of the first call (`Tomb.Kill`), is
kept apart.
-/

namespace Jujud

/-! ## Errors -/

/-- A non-nil Go `error` value: either an `*UpgradedError` carrying the binary
to upgrade to, or any other error, identified by its message. -/
inductive GoError where
  | upgraded (binary : String)
  | failure (msg : String)
  deriving DecidableEq, Repr

/-- A Go `error`; `none` is `nil`. -/
abbrev Error := Option GoError

/-- The type assertion `err.(*UpgradedError)`: the binary when it succeeds. -/
def asUpgraded : Error → Option String
  | some (.upgraded binary) => some binary
  | _ => none

/-! ## The lifecycle handle -/

/-- Completion state of a lifecycle handle. -/
inductive LifeState where
  | alive
  | dying
  | dead
  deriving DecidableEq, Repr

/-- Modelled from the spec: the lifecycle handle (`tomb.Tomb`, whose package
`launchpad.net/tomb` is not among the sources): a completion state and a
captured terminal error, nil until set. -/
structure Tomb where
  state : LifeState
  reason : Error
  deriving DecidableEq, Repr

/-- What `Err()` reports: the sentinel `tomb.ErrStillAlive`, or the recorded
terminal error. -/
inductive TombErr where
  | ErrStillAlive
  | recorded (err : Error)
  deriving DecidableEq, Repr

namespace Tomb

/-- Modelled from the spec: the zero value of the handle, never killed. -/
def zero : Tomb := { state := .alive, reason := none }

/-- Modelled from the spec: `Kill(err)`.  First call wins: if the handle is
Alive, records `err` (nil meaning clean) as the terminal error and moves to
Dying; later calls leave the recorded error as it is. -/
def Kill (t : Tomb) (err : Error) : Tomb :=
  match t.state with
  | .alive => { state := .dying, reason := err }
  | _ => t

/-- Modelled from the spec: the dying signal, observable exactly once the
handle has left Alive. -/
def Dying (t : Tomb) : Bool :=
  match t.state with
  | .alive => false
  | _ => true

/-- Modelled from the spec: `Err()`, the sentinel still-alive condition before
any `Kill`, the recorded terminal error afterwards. -/
def Err (t : Tomb) : TombErr :=
  match t.state with
  | .alive => .ErrStillAlive
  | _ => .recorded t.reason

/-- Modelled from the spec: `Done()`, the transition Dying → Dead made by the
owning supervisor; `none` is the fatal report for a handle that is still Alive
or already Dead. -/
def Done (t : Tomb) : Option Tomb :=
  match t.state with
  | .dying => some { t with state := .dead }
  | _ => none

/-- Modelled from the spec: `Wait()`, which blocks until the handle is Dead and
then returns the recorded terminal error; `none` while it still blocks. -/
def Wait (t : Tomb) : Option Error :=
  match t.state with
  | .dead => some t.reason
  | _ => none

/-- A sequence of `Kill` calls, applied in order. -/
def killAll (t : Tomb) (errs : List Error) : Tomb :=
  errs.foldl Kill t

/-- The method `Kill` of package `launchpad.net/tomb`, the handle `a.tomb` of
`MachineAgent` (the package is not among the sources): the handle leaves Alive,
and only the first non-nil error is recorded as the reason, so a reason that is
still nil is replaced by the error of a later call.  This is what lets
`a.tomb.Kill(err)` in the dying case of `Run` record the error of the cycle
after `Stop` has called `Kill(nil)`. -/
def tombKill (t : Tomb) (err : Error) : Tomb :=
  match t.state with
  | .alive => { state := .dying, reason := err }
  | _ =>
    match t.reason with
    | none => { t with reason := err }
    | some _ => t

/-- A sequence of `Kill` calls on `a.tomb`, applied in order. -/
def tombKillAll (t : Tomb) (errs : List Error) : Tomb :=
  errs.foldl tombKill t

end Tomb

/-! ## Events and schedules -/

/-- Observable steps of `MachineAgent.Run`, in program order. -/
inductive Event where
  /-- After "machine agent starting" is logged, `a.runOnce()` is called. -/
  | starting
  /-- `state.Open` returned. -/
  | stateOpen (err : Error)
  /-- `st.Machine` returned. -/
  | machine (err : Error)
  /-- `runTasks` returned. -/
  | runTasks (err : Error)
  /-- The deferred `st.Close()` ran. -/
  | stateClose
  /-- `environs.ChangeAgentTools("machine", binary)` returned. -/
  | changeAgentTools (binary : String) (err : Error)
  /-- "exiting to upgrade": `return nil`. -/
  | exiting
  /-- Another goroutine called `Kill(err)` on the handle. -/
  | externalKill (err : Error)
  /-- The `select` took `<-a.tomb.Dying()`: `a.tomb.Kill(err)`. -/
  | kill (err : Error)
  /-- The `select` took `<-time.After(retryDelay)`: "restarting machiner after error". -/
  | restarting (err : Error)
  /-- `return a.tomb.Err()` after the loop. -/
  | returning (err : Error)
  /-- The deferred `a.tomb.Done()` ran. -/
  | done
  deriving DecidableEq, Repr

/-- The environment of one cycle of the loop. -/
structure Cycle where
  /-- External `Kill` calls landing after the loop head has read
  `a.tomb.Err()` as `ErrStillAlive` and before `a.runOnce()` is called. -/
  killsBefore : List Error
  /-- External `Kill` calls arriving while `runOnce` is in flight. -/
  killsRunning : List Error
  /-- Result of `state.Open`. -/
  openErr : Error
  /-- Result of `st.Machine`. -/
  machineErr : Error
  /-- Result of `runTasks`. -/
  tasksErr : Error
  /-- Result of `environs.ChangeAgentTools`. -/
  toolsErr : Error
  /-- External `Kill` calls arriving after `runOnce` returned and before the
  `select` is resolved. -/
  killsWaiting : List Error
  /-- The `select` takes the timer case when both cases are ready. -/
  timerFirst : Bool
  deriving DecidableEq, Repr

/-- Result of running the loop against a schedule: `ret` is the value `Run`
returns, or `none` when the schedule ends with the loop still going. -/
structure Outcome where
  ret : Option Error
  trace : List Event
  deriving DecidableEq, Repr

/-! ## `MachineAgent.runOnce` -/

/-- `MachineAgent.runOnce`: the error it returns and the calls it makes. -/
def runOnce (c : Cycle) : Error × List Event :=
  match c.openErr with
  | some e => (some e, [.stateOpen (some e)])
  | none =>
    -- defer st.Close()
    let body : Error × List Event :=
      match c.machineErr with
      | some e => (some e, [.machine (some e)])
      | none => (c.tasksErr, [.machine none, .runTasks c.tasksErr])
    (body.1, .stateOpen none :: body.2 ++ [.stateClose])

/-! ## `MachineAgent.Run` -/

/-- The upgrade branch of the loop body: `none` when `Run` returns nil, else
the error carried on to the `select`. -/
def upgradeStep (err toolsErr : Error) : Option Error × List Event :=
  match err with
  | some (.upgraded binary) =>
    match toolsErr with
    | none => (none, [.changeAgentTools binary none, .exiting])
    | some e1 => (some (some e1), [.changeAgentTools binary (some e1)])
  | _ => (some err, [])

/-- The `select` of the loop body.  The dying case is ready once the handle has
left Alive; the timer case is the only one ready while the handle is Alive. -/
def selectStep (t : Tomb) (err : Error) (timerFirst : Bool) : Tomb × List Event :=
  if t.Dying && !timerFirst then (t.tombKill err, [.kill err])
  else (t, [.restarting err])

/-- The part of a cycle before the `select`: the external `Kill` calls landing
between the loop-head read and the call of `runOnce`, the call of `runOnce`
(with the external `Kill` calls made meanwhile) and the upgrade branch. -/
def bodyTrace (c : Cycle) : List Event :=
  c.killsBefore.map .externalKill
    ++ (.starting :: c.killsRunning.map .externalKill ++ (runOnce c).2
      ++ (upgradeStep (runOnce c).1 c.toolsErr).2)

/-- The handle as the `select` of cycle `c` finds it. -/
def atSelect (t : Tomb) (c : Cycle) : Tomb :=
  ((t.tombKillAll c.killsBefore).tombKillAll c.killsRunning).tombKillAll c.killsWaiting

/-- The `for` loop of `MachineAgent.Run`, one schedule entry per cycle.  The
loop head reads `a.tomb.Err()`; when it is `ErrStillAlive` the body is entered,
and the call of `runOnce` follows without a further look at the handle. -/
def loop (t : Tomb) : List Cycle → Outcome
  | [] =>
    match t.Err with
    | .ErrStillAlive => ⟨none, []⟩
    | .recorded e => ⟨some e, [.returning e]⟩
  | c :: rest =>
    match t.Err with
    | .recorded e => ⟨some e, [.returning e]⟩
    | .ErrStillAlive =>
      match (upgradeStep (runOnce c).1 c.toolsErr).1 with
      | none => ⟨some none, bodyTrace c⟩
      | some err =>
        let s := selectStep (atSelect t c) err c.timerFirst
        let o := loop s.1 rest
        ⟨o.ret, bodyTrace c ++ c.killsWaiting.map .externalKill ++ s.2 ++ o.trace⟩

/-- `MachineAgent.Run`: the loop, followed by the deferred `a.tomb.Done()` once
`Run` returns.  The deferred call is recorded as an event; it runs after the
result has been fixed. -/
def Run (t : Tomb) (sched : List Cycle) : Outcome :=
  let o := loop t sched
  match o.ret with
  | none => o
  | some _ => ⟨o.ret, o.trace ++ [.done]⟩

/-- `MachineAgent.Stop`, as seen by `Run`: the error of the `Kill` it makes,
`a.tomb.Kill(nil)`. -/
def stopKill : Error := none

/-- Number of cycles started: calls of `runOnce`. -/
def cyclesStarted (tr : List Event) : Nat :=
  tr.count .starting

/-! ## Sample cycles and trace predicates -/

/-- A cycle whose `runTasks` ends with `err`, with no external `Kill`. -/
def quietCycle (err toolsErr : Error) : Cycle :=
  { killsBefore := [], killsRunning := [], openErr := none, machineErr := none, tasksErr := err,
    toolsErr := toolsErr, killsWaiting := [], timerFirst := true }

/-- A cycle whose `runTasks` ends with `err` after external `Kill` calls made
while it was running. -/
def killedCycle (kills : List Error) (err toolsErr : Error) (timerFirst : Bool) : Cycle :=
  { killsBefore := [], killsRunning := kills, openErr := none, machineErr := none, tasksErr := err,
    toolsErr := toolsErr, killsWaiting := [], timerFirst := timerFirst }

/-- A cycle that fails at `state.Open` with `err`, with no external `Kill`. -/
def openFailure (err : GoError) : Cycle :=
  { killsBefore := [], killsRunning := [], openErr := some err, machineErr := none, tasksErr := none,
    toolsErr := none, killsWaiting := [], timerFirst := true }

/-- A cycle before whose `runOnce` call, and after the loop-head read, the
handle is killed with `kills`; `runTasks` then ends with `err`. -/
def windowCycle (kills : List Error) (err : Error) : Cycle :=
  { killsBefore := kills, killsRunning := [], openErr := none, machineErr := none,
    tasksErr := err, toolsErr := none, killsWaiting := [], timerFirst := false }

/-- A `Kill` call on the handle, by another goroutine or by `Run` itself. -/
def Event.isKill : Event → Bool
  | .externalKill _ => true
  | .kill _ => true
  | _ => false

/-- The start of a cycle. -/
def Event.isStart : Event → Bool
  | .starting => true
  | _ => false

/-- An external `Kill` call. -/
def Event.isExternalKill : Event → Bool
  | .externalKill _ => true
  | _ => false

/-- Where a trace stands with respect to `Kill` calls: none so far (`clean`);
only external ones, with no step of `Run` since the first of them (`window`);
or a `Kill` followed by a step of `Run`, or a `Kill` by `Run` itself
(`spent`). -/
inductive Guard where
  | clean
  | window
  | spent
  deriving DecidableEq, Repr

/-- The effect of one event on the guard. -/
def Guard.step : Guard → Event → Guard
  | .clean, e => if e.isExternalKill then .window else if e.isKill then .spent else .clean
  | .window, e => if e.isExternalKill then .window else .spent
  | .spent, _ => .spent

/-- Scan of a trace: no cycle is started while the guard is `spent`. -/
def guarded : Guard → List Event → Bool
  | _, [] => true
  | g, e :: es => !(g == .spent && e.isStart) && guarded (g.step e) es

/-- The handle after the `Kill` calls recorded in a trace. -/
def replay (t : Tomb) : List Event → Tomb
  | [] => t
  | .externalKill err :: es => replay (t.tombKill err) es
  | .kill err :: es => replay (t.tombKill err) es
  | _ :: es => replay t es

/-! ## The worker-group runner -/

/-- Modelled from the spec: the terminations a run of the worker group yields
(`runTasks` is not among the sources).  Worker `i`, in the order the workers
were supplied, terminates with `results[i]`; `order` lists the workers in the
order in which they terminated; each termination is observed together with
the worker it belongs to. -/
def observe (results : List Error) (order : List Nat) : List (Nat × Error) :=
  order.map (fun i => (i, results.getD i none))

/-- Modelled from the spec: the result of `RunGroup` (`runTasks`, which is not
among the sources) for `n` supplied workers, once every worker has terminated.
If the shutdown was triggered by the external cancel and no worker reported a
non-nil error, the result is nil; otherwise it is the first non-nil error among
the observed termination results, in the order the workers were supplied. -/
def RunGroup (cancel : Bool) (n : Nat) (obs : List (Nat × Error)) : Error :=
  if cancel && obs.all (fun o => o.2.isNone) then none
  else (List.range n).findSome? (fun i => (obs.lookup i).join)

end Jujud

namespace Cloud

/-! ## `cloudSourceOrder` -/

/-- A Go string: its bytes. -/
abbrev GoString := List Nat

/-- The bytes of a string literal of the source (ASCII). -/
def lit (s : String) : GoString :=
  s.data.map Char.toNat

/-- Go's `<` on strings: lexicographic comparison of the bytes. -/
def stringLess : GoString → GoString → Bool
  | _, [] => false
  | [], _ :: _ => true
  | a :: as, b :: bs =>
    if a < b then true else if b < a then false else stringLess as bs

/-- The constant `localPrefix`. -/
def localPrefix : GoString :=
  lit "local:"

/-- The call `strings.HasPrefix(s, pre)`. -/
def HasPrefix (s pre : GoString) : Bool :=
  pre.isPrefixOf s

/-- `cloudSourceOrder.Less(i, j)`, on the names `x = a[i]` and `y = a[j]`. -/
def Less (x y : GoString) : Bool :=
  let isLeftLocal := HasPrefix x localPrefix
  let isRightLocal := HasPrefix y localPrefix
  if isLeftLocal == isRightLocal then stringLess x y else isRightLocal

/-- The order `sort.Sort` establishes between an element `x` and any later
element `y`: `Less(y, x)` is false. -/
def notAfter (x y : GoString) : Prop :=
  Less y x = false

instance : DecidableRel notAfter :=
  fun x y => inferInstanceAs (Decidable (Less y x = false))

/-- The call `sort.Sort(cloudSourceOrder(cloudNames))` of `formatCloudsTabular`.
`sort.Sort` belongs to the Go standard library; it is taken here as insertion
sort driven by `Less`. -/
def sortNames (names : List GoString) : List GoString :=
  names.insertionSort notAfter

end Cloud

namespace Filepath

open Cloud (GoString lit)

/-! ## `path/filepath` on Unix, as used by `Context.AbsPath` -/

/-- The constant `filepath.Separator`, the byte of the slash. -/
def Separator : Nat := 47

/-- The byte of the dot. -/
def dot : Nat := 46

/-- The call `filepath.IsAbs(path)` on Unix: the path begins with a slash. -/
def IsAbs (path : GoString) : Bool :=
  [Separator].isPrefixOf path

/-- The path elements between the separators of a path. -/
def elements : GoString → List GoString
  | [] => [[]]
  | b :: bs =>
    if b = Separator then [] :: elements bs
    else
      match elements bs with
      | [] => [[b]]
      | e :: es => (b :: e) :: es

/-- One element handled by `filepath.Clean`; `out` holds the elements written
so far, the last one first.  Empty and `.` elements are dropped; a `..` element
removes the element before it when there is one to remove, is kept at the
front of a path that is not rooted, and is dropped at the root; any other
element is written. -/
def cleanElem (rooted : Bool) (out : List GoString) (e : GoString) : List GoString :=
  if e = [] then out
  else if e = [dot] then out
  else if e = [dot, dot] then
    match out with
    | top :: below =>
      if top ≠ [dot, dot] then below
      else if rooted then out
      else e :: out
    | [] => if rooted then out else [e]
  else e :: out

/-- The function `filepath.Clean` (Go standard library): the shortest path
equivalent to `path` by purely lexical processing; the empty result is
written as a dot. -/
def Clean (path : GoString) : GoString :=
  if path = [] then [dot]
  else
    let rooted := IsAbs path
    let out := (elements path).foldl (cleanElem rooted) []
    let body := [Separator].intercalate out.reverse
    if rooted then Separator :: body
    else if body = [] then [dot]
    else body

/-- The function `filepath.Join` (Go standard library): the elements from the
first non-empty one on are joined with the separator and cleaned; the result
is empty when every element is. -/
def Join : List GoString → GoString
  | [] => []
  | e :: es =>
    if e = [] then Join es
    else Clean ([Separator].intercalate (e :: es))

end Filepath

namespace Cmd

open Cloud (GoString lit)

/-! ## `cmd/context.go` -/

/-- The type `Context`; of its fields only `Dir` is read by `AbsPath`, and the
output streams are seen through the steps of `Main`. -/
structure Context where
  Dir : GoString
  deriving DecidableEq, Repr

/-- `Context.AbsPath`. -/
def Context.AbsPath (ctx : Context) (path : GoString) : GoString :=
  if Filepath.IsAbs path then path
  else Filepath.Join [ctx.Dir, path]

/-- A `Command` as `Main` sees it: what `Parse(c, args)` returns for given
arguments, what `c.Run(ctx)` returns, and `c.Info().Name`.  An error is its
message; `none` is nil. -/
structure Command where
  parse : List String → Option String
  run : Option String
  name : String

/-- Observable steps of `Main`, in program order. -/
inductive Step where
  /-- The call `Parse(c, args)`. -/
  | parse
  /-- The call `c.Run(ctx)`. -/
  | run
  /-- The error written to `ctx.Stderr`. -/
  | stderr (err : String)
  /-- The call `printUsage(c, ctx.Stderr)`. -/
  | printUsage
  /-- The call `log.Debugf` reporting that the named command failed. -/
  | debugf (name err : String)
  deriving DecidableEq, Repr

/-- `Main`: the exit code it returns and the steps it takes. -/
def Main (c : Command) (args : List String) : Int × List Step :=
  match c.parse args with
  | some err => (2, [.parse, .stderr err, .printUsage])
  | none =>
    match c.run with
    | some err => (1, [.parse, .run, .debugf c.name err, .stderr err])
    | none => (0, [.parse, .run])

end Cmd

/-! # Theorems -/

namespace Jujud

/-! ## Basic facts about the handle -/

theorem Tomb.err_alive_iff (t : Tomb) : t.Err = .ErrStillAlive ↔ t.state = .alive := by
  unfold Tomb.Err
  cases h : t.state <;> simp

theorem Tomb.err_of_not_alive (t : Tomb) (h : t.state ≠ .alive) :
    t.Err = .recorded t.reason := by
  unfold Tomb.Err
  cases hs : t.state <;> simp_all

theorem Tomb.kill_of_not_alive (t : Tomb) (e : Error) (h : t.state ≠ .alive) :
    t.Kill e = t := by
  unfold Tomb.Kill
  cases hs : t.state <;> simp_all

theorem Tomb.killAll_of_not_alive (t : Tomb) (es : List Error) (h : t.state ≠ .alive) :
    t.killAll es = t := by
  induction es with
  | nil => rfl
  | cons e es ih =>
    have : t.killAll (e :: es) = (t.Kill e).killAll es := rfl
    rw [this, Tomb.kill_of_not_alive t e h, ih]

theorem Tomb.kill_of_alive (t : Tomb) (e : Error) (h : t.state = .alive) :
    t.Kill e = { state := .dying, reason := e } := by
  unfold Tomb.Kill
  rw [h]

theorem Tomb.killAll_cons_of_alive (t : Tomb) (e : Error) (es : List Error)
    (h : t.state = .alive) :
    t.killAll (e :: es) = { state := .dying, reason := e } := by
  have : t.killAll (e :: es) = (t.Kill e).killAll es := rfl
  rw [this, Tomb.kill_of_alive t e h]
  exact Tomb.killAll_of_not_alive _ es (by simp)

/-! ## Basic facts about `Kill` on `a.tomb` -/

theorem Tomb.tombKill_of_alive (t : Tomb) (e : Error) (h : t.state = .alive) :
    t.tombKill e = { state := .dying, reason := e } := by
  unfold Tomb.tombKill
  rw [h]

theorem Tomb.tombKill_state (t : Tomb) (e : Error) : (t.tombKill e).state ≠ .alive := by
  unfold Tomb.tombKill
  cases hs : t.state <;> cases hr : t.reason <;> simp [hs]

theorem Tomb.tombKill_state_of_not_alive (t : Tomb) (e : Error) (h : t.state ≠ .alive) :
    (t.tombKill e).state = t.state := by
  unfold Tomb.tombKill
  cases hs : t.state <;> cases hr : t.reason <;> simp_all

theorem Tomb.tombKill_of_recorded (t : Tomb) (e : Error) (x : GoError)
    (hs : t.state ≠ .alive) (hr : t.reason = some x) : t.tombKill e = t := by
  unfold Tomb.tombKill
  cases h : t.state <;> simp_all

theorem Tomb.tombKill_nil (t : Tomb) (hs : t.state ≠ .alive) : t.tombKill none = t := by
  obtain ⟨st, r⟩ := t
  cases st <;> cases r <;> simp_all [Tomb.tombKill]

theorem Tomb.tombKillAll_cons (t : Tomb) (e : Error) (es : List Error) :
    t.tombKillAll (e :: es) = (t.tombKill e).tombKillAll es := rfl

theorem Tomb.tombKillAll_append (t : Tomb) (es fs : List Error) :
    t.tombKillAll (es ++ fs) = (t.tombKillAll es).tombKillAll fs := by
  simp [Tomb.tombKillAll, List.foldl_append]

/-- A handle that is not Alive stays so under further `Kill` calls. -/
theorem Tomb.tombKillAll_state_of_not_alive (t : Tomb) (es : List Error)
    (h : t.state ≠ .alive) : (t.tombKillAll es).state ≠ .alive := by
  induction es generalizing t with
  | nil => exact h
  | cons e es ih =>
    rw [Tomb.tombKillAll_cons]
    exact ih _ (Tomb.tombKill_state t e)

/-- Any `Kill` call makes the handle leave Alive. -/
theorem Tomb.tombKillAll_cons_state (t : Tomb) (e : Error) (es : List Error) :
    (t.tombKillAll (e :: es)).state ≠ .alive := by
  rw [Tomb.tombKillAll_cons]
  exact Tomb.tombKillAll_state_of_not_alive _ es (Tomb.tombKill_state t e)

/-- A recorded non-nil error is not replaced. -/
theorem Tomb.tombKillAll_of_recorded (t : Tomb) (es : List Error) (x : GoError)
    (hs : t.state ≠ .alive) (hr : t.reason = some x) : t.tombKillAll es = t := by
  induction es with
  | nil => rfl
  | cons e es ih =>
    rw [Tomb.tombKillAll_cons, Tomb.tombKill_of_recorded t e x hs hr, ih]

/-- The first `Kill` of a handle that is Alive, when its error is non-nil,
decides the recorded error. -/
theorem Tomb.tombKillAll_cons_of_alive (t : Tomb) (x : GoError) (es : List Error)
    (h : t.state = .alive) :
    t.tombKillAll (some x :: es) = { state := .dying, reason := some x } := by
  rw [Tomb.tombKillAll_cons, Tomb.tombKill_of_alive t _ h]
  exact Tomb.tombKillAll_of_recorded _ es x (by simp) rfl

/-- After `Kill(nil)` calls only, the handle is Dying with a nil reason. -/
theorem Tomb.tombKillAll_nils (t : Tomb) (e : Error) (es : List Error)
    (h : t.state = .alive) (hnil : ∀ k ∈ e :: es, k = none) :
    t.tombKillAll (e :: es) = { state := .dying, reason := none } := by
  have he : e = none := hnil e (List.mem_cons_self _ _)
  subst he
  rw [Tomb.tombKillAll_cons, Tomb.tombKill_of_alive t _ h]
  have hes : ∀ k ∈ es, k = none := fun k hk => hnil k (List.mem_cons_of_mem _ hk)
  clear hnil
  induction es with
  | nil => rfl
  | cons k ks ih =>
    have hk : k = none := hes k (List.mem_cons_self _ _)
    subst hk
    rw [Tomb.tombKillAll_cons, Tomb.tombKill_nil _ (by simp)]
    exact ih (fun k hk => hes k (List.mem_cons_of_mem _ hk))

theorem atSelect_eq (t : Tomb) (c : Cycle) :
    atSelect t c = t.tombKillAll (c.killsBefore ++ c.killsRunning ++ c.killsWaiting) := by
  rw [Tomb.tombKillAll_append, Tomb.tombKillAll_append]; rfl

/-! ## Unfolding the loop -/

theorem loop_of_not_alive (t : Tomb) (sched : List Cycle) (h : t.state ≠ .alive) :
    loop t sched = ⟨some t.reason, [.returning t.reason]⟩ := by
  cases sched <;> simp [loop, Tomb.err_of_not_alive t h]

theorem loop_cons_exit (t : Tomb) (c : Cycle) (rest : List Cycle)
    (h : t.Err = .ErrStillAlive)
    (hu : (upgradeStep (runOnce c).1 c.toolsErr).1 = none) :
    loop t (c :: rest) = ⟨some none, bodyTrace c⟩ := by
  simp [loop, h, hu]

theorem loop_cons_retry (t : Tomb) (c : Cycle) (rest : List Cycle) (err : Error)
    (h : t.Err = .ErrStillAlive)
    (hu : (upgradeStep (runOnce c).1 c.toolsErr).1 = some err) :
    loop t (c :: rest) =
      ⟨(loop (selectStep (atSelect t c) err c.timerFirst).1 rest).ret,
        bodyTrace c ++ c.killsWaiting.map .externalKill
          ++ (selectStep (atSelect t c) err c.timerFirst).2
          ++ (loop (selectStep (atSelect t c) err c.timerFirst).1 rest).trace⟩ := by
  simp [loop, h, hu]

/-! ## Events of one cycle -/

theorem starting_not_mem_runOnce (c : Cycle) : Event.starting ∉ (runOnce c).2 := by
  unfold runOnce
  cases c.openErr <;> cases c.machineErr <;> simp

theorem starting_not_mem_upgradeStep (err toolsErr : Error) :
    Event.starting ∉ (upgradeStep err toolsErr).2 := by
  unfold upgradeStep
  rcases err with _ | ⟨b | m⟩ <;> cases toolsErr <;> simp

theorem starting_not_mem_selectStep (t : Tomb) (err : Error) (b : Bool) :
    Event.starting ∉ (selectStep t err b).2 := by
  unfold selectStep
  split <;> simp

theorem count_starting_externalKill (es : List Error) :
    (es.map Event.externalKill).count .starting = 0 := by
  rw [List.count_eq_zero]
  simp

theorem cyclesStarted_bodyTrace (c : Cycle) : cyclesStarted (bodyTrace c) = 1 := by
  have h1 := List.count_eq_zero.mpr (starting_not_mem_runOnce c)
  have h2 := List.count_eq_zero.mpr (starting_not_mem_upgradeStep (runOnce c).1 c.toolsErr)
  have h3 := count_starting_externalKill c.killsRunning
  have h4 := count_starting_externalKill c.killsBefore
  simp [cyclesStarted, bodyTrace, List.count_cons, List.count_append, h1, h2, h3, h4]

theorem cyclesStarted_append (xs ys : List Event) :
    cyclesStarted (xs ++ ys) = cyclesStarted xs + cyclesStarted ys := by
  simp [cyclesStarted, List.count_append]

theorem cyclesStarted_externalKill (es : List Error) :
    cyclesStarted (es.map Event.externalKill) = 0 :=
  count_starting_externalKill es

theorem cyclesStarted_selectStep (t : Tomb) (err : Error) (b : Bool) :
    cyclesStarted (selectStep t err b).2 = 0 :=
  List.count_eq_zero.mpr (starting_not_mem_selectStep t err b)

theorem upgradeStep_eq_none_iff (err toolsErr : Error) :
    (upgradeStep err toolsErr).1 = none ↔
      (∃ binary, err = some (.upgraded binary)) ∧ toolsErr = none := by
  unfold upgradeStep
  rcases err with _ | ⟨b | m⟩ <;> cases toolsErr <;> simp

/-- The handle found by the `select` of a cycle during which the handle was
killed has left Alive. -/
theorem atSelect_state_of_kill (t : Tomb) (c : Cycle) (e : Error) (more : List Error)
    (hkill : c.killsBefore ++ c.killsRunning ++ c.killsWaiting = e :: more) :
    (atSelect t c).state ≠ .alive := by
  rw [atSelect_eq, hkill]
  exact Tomb.tombKillAll_cons_state t e more

theorem selectStep_state (t : Tomb) (err : Error) (b : Bool) (h : t.state ≠ .alive) :
    (selectStep t err b).1.state ≠ .alive := by
  unfold selectStep
  split
  · exact Tomb.tombKill_state t err
  · exact h

/-- The handle after the `select`, when the dying signal was ready: on the
dying case `Run` has called `Kill(err)`, on the timer case nothing changed. -/
theorem selectStep_of_dying (t : Tomb) (err : Error) (b : Bool) (h : t.state ≠ .alive) :
    (selectStep t err b).1 = if b then t else t.tombKill err := by
  have hd : t.Dying = true := by
    unfold Tomb.Dying
    cases hs : t.state <;> simp_all
  unfold selectStep
  cases b <;> simp [hd]

/-- After the `select` of a cycle in which the handle was killed, the loop ends
with the error recorded by then, whichever case the `select` took. -/
theorem loop_after_select_of_dying (t : Tomb) (err : Error) (b : Bool) (rest : List Cycle)
    (h : t.state ≠ .alive) :
    loop (selectStep t err b).1 rest
      = ⟨some (selectStep t err b).1.reason, [.returning (selectStep t err b).1.reason]⟩ :=
  loop_of_not_alive _ rest (selectStep_state t err b h)

theorem Run_ret (t : Tomb) (sched : List Cycle) : (Run t sched).ret = (loop t sched).ret := by
  unfold Run
  cases h : (loop t sched).ret <;> simp [h]

/-- A cycle that the loop prefixes to the rest of the run is prefixed to the
rest of `Run` as well. -/
theorem Run_of_loop_prefix (t t' : Tomb) (s s' : List Cycle) (pre : List Event)
    (h : loop t s = ⟨(loop t' s').ret, pre ++ (loop t' s').trace⟩) :
    Run t s = ⟨(Run t' s').ret, pre ++ (Run t' s').trace⟩ := by
  unfold Run
  rw [h]
  cases hr : (loop t' s').ret <;> simp [hr]

/-- One cycle during which the handle, Alive at the loop head, is killed, and
which does not leave through the upgrade exit: `Run` returns after this cycle
with the error recorded when the `select` is done. -/
theorem run_of_kill (t : Tomb) (c : Cycle) (rest : List Cycle) (e err : Error)
    (more : List Error)
    (halive : t.Err = .ErrStillAlive)
    (hkill : c.killsBefore ++ c.killsRunning ++ c.killsWaiting = e :: more)
    (hup : (upgradeStep (runOnce c).1 c.toolsErr).1 = some err) :
    (Run t (c :: rest)).ret = some (selectStep (atSelect t c) err c.timerFirst).1.reason
      ∧ cyclesStarted (Run t (c :: rest)).trace = 1 := by
  have hl := loop_cons_retry t c rest err halive hup
  rw [loop_after_select_of_dying (atSelect t c) err c.timerFirst rest
    (atSelect_state_of_kill t c e more hkill)] at hl
  have hsel := cyclesStarted_selectStep (atSelect t c) err c.timerFirst
  unfold Run
  rw [hl]
  simp only [cyclesStarted_append, cyclesStarted_bodyTrace, cyclesStarted_externalKill, hsel]
  simp [cyclesStarted]

theorem restarting_not_mem_bodyTrace (c : Cycle) (e : Error) :
    Event.restarting e ∉ bodyTrace c := by
  have h1 : Event.restarting e ∉ (runOnce c).2 := by
    unfold runOnce
    cases c.openErr <;> cases c.machineErr <;> simp
  have h2 : ∀ err toolsErr, Event.restarting e ∉ (upgradeStep err toolsErr).2 := by
    intro err toolsErr
    unfold upgradeStep
    rcases err with _ | ⟨b | m⟩ <;> cases toolsErr <;> simp
  simp [bodyTrace, h1, h2]

theorem kill_not_mem_bodyTrace (c : Cycle) (e : Error) :
    Event.kill e ∉ bodyTrace c := by
  have h1 : Event.kill e ∉ (runOnce c).2 := by
    unfold runOnce
    cases c.openErr <;> cases c.machineErr <;> simp
  have h2 : ∀ err toolsErr, Event.kill e ∉ (upgradeStep err toolsErr).2 := by
    intro err toolsErr
    unfold upgradeStep
    rcases err with _ | ⟨b | m⟩ <;> cases toolsErr <;> simp
  simp [bodyTrace, h1, h2]

/-- C1: a cycle whose `runOnce` result is an `*UpgradedError` and for which
`environs.ChangeAgentTools` succeeds makes `Run` return nil at once: the run
consists of this cycle up to the upgrade exit followed by the deferred `Done`,
whatever cycles the schedule still offers; `runOnce` is called once and the
`select` (dying case or backoff timer) is not reached. -/
theorem C1_upgrade_exit (t : Tomb) (c : Cycle) (rest : List Cycle) (binary : String)
    (halive : t.Err = .ErrStillAlive)
    (hup : (runOnce c).1 = some (.upgraded binary))
    (htools : c.toolsErr = none) :
    Run t (c :: rest) =
        ⟨some none, c.killsBefore.map .externalKill
          ++ (.starting :: c.killsRunning.map .externalKill ++ (runOnce c).2
            ++ [.changeAgentTools binary none, .exiting, .done])⟩
      ∧ cyclesStarted (Run t (c :: rest)).trace = 1
      ∧ (∀ e, Event.restarting e ∉ (Run t (c :: rest)).trace)
      ∧ (∀ e, Event.kill e ∉ (Run t (c :: rest)).trace) := by
  have hu : (upgradeStep (runOnce c).1 c.toolsErr).1 = none := by
    rw [hup, htools]; rfl
  have hl := loop_cons_exit t c rest halive hu
  have hrun : Run t (c :: rest) = ⟨some none, bodyTrace c ++ [.done]⟩ := by
    unfold Run
    rw [hl]
  have hbody : bodyTrace c = c.killsBefore.map .externalKill
      ++ (.starting :: c.killsRunning.map .externalKill ++ (runOnce c).2
        ++ [.changeAgentTools binary none, .exiting]) := by
    unfold bodyTrace
    rw [hup, htools]; rfl
  refine ⟨?_, ?_, ?_, ?_⟩
  · rw [hrun, hbody]; simp
  · rw [hrun]
    simp only [cyclesStarted_append, cyclesStarted_bodyTrace]
    simp [cyclesStarted]
  · intro e
    rw [hrun]
    simp [restarting_not_mem_bodyTrace]
  · intro e
    rw [hrun]
    simp [kill_not_mem_bodyTrace]

/-- Witness for C1: the upgrader reports version 2.0, the tools are changed,
and a second cycle offered by the schedule is never started. -/
theorem C1_upgrade_exit_witness :
    cyclesStarted (Run Tomb.zero
      [quietCycle (some (.upgraded "2.0")) none, quietCycle none none]).trace = 1 :=
  (C1_upgrade_exit Tomb.zero (quietCycle (some (.upgraded "2.0")) none)
    [quietCycle none none] "2.0" rfl rfl rfl).2.1

/-- C2, as stated, fails: `Kill(stop)` is the first kill of a handle that is
Alive and arrives while the cycle is running, the cycle's `runOnce` returns an
`*UpgradedError`, the tools are changed, and `Run` returns nil, not `stop`. -/
theorem C2_counterexample :
    Tomb.zero.Err = .ErrStillAlive
      ∧ (killedCycle [some (.failure "stop")] (some (.upgraded "2.0")) none false).killsRunning
          = [some (.failure "stop")]
      ∧ (Run Tomb.zero
          [killedCycle [some (.failure "stop")] (some (.upgraded "2.0")) none false]).ret
          = some none
      ∧ (Run Tomb.zero
          [killedCycle [some (.failure "stop")] (some (.upgraded "2.0")) none false]).ret
          ≠ some (some (.failure "stop")) := by
  refine ⟨rfl, rfl, rfl, ?_⟩
  have h : (Run Tomb.zero
      [killedCycle [some (.failure "stop")] (some (.upgraded "2.0")) none false]).ret
      = some none := rfl
  rw [h]
  simp

/-- C2, amended: when `Kill(err)` with a non-nil `err` is the first kill of the
handle and arrives during a cycle of `Run` (from the loop-head read on), and
that cycle does not leave through the upgrade exit (an `*UpgradedError` from
`runOnce` with `ChangeAgentTools` succeeding), `Run` returns `err` after that
cycle, whatever `runOnce` returns and whichever case the `select` takes. -/
theorem C2_kill_err (t : Tomb) (c : Cycle) (rest : List Cycle) (err : GoError)
    (more : List Error)
    (halive : t.Err = .ErrStillAlive)
    (hkill : c.killsBefore ++ c.killsRunning ++ c.killsWaiting = some err :: more)
    (hup : ¬ ((∃ binary, (runOnce c).1 = some (.upgraded binary)) ∧ c.toolsErr = none)) :
    (Run t (c :: rest)).ret = some (some err)
      ∧ cyclesStarted (Run t (c :: rest)).trace = 1 := by
  have hne : (upgradeStep (runOnce c).1 c.toolsErr).1 ≠ none :=
    fun h => hup ((upgradeStep_eq_none_iff _ _).mp h)
  obtain ⟨carried, hcarried⟩ := Option.ne_none_iff_exists'.mp hne
  have hrun := run_of_kill t c rest (some err) carried more halive hkill hcarried
  have hat : atSelect t c = { state := .dying, reason := some err } := by
    rw [atSelect_eq, hkill]
    exact Tomb.tombKillAll_cons_of_alive t err more ((Tomb.err_alive_iff t).mp halive)
  have hsel : (selectStep (atSelect t c) carried c.timerFirst).1
      = { state := .dying, reason := some err } := by
    rw [hat, selectStep_of_dying _ _ _ (by simp),
      Tomb.tombKill_of_recorded _ carried err (by simp) rfl]
    simp
  rw [hsel] at hrun
  exact hrun

/-- Witness for C2: a worker fails while the handle is killed with `stop`. -/
theorem C2_kill_err_witness :
    (Run Tomb.zero
      [killedCycle [some (.failure "stop")] (some (.failure "worker")) none false,
        quietCycle none none]).ret = some (some (.failure "stop")) :=
  (C2_kill_err Tomb.zero
    (killedCycle [some (.failure "stop")] (some (.failure "worker")) none false)
    [quietCycle none none] (.failure "stop") [] rfl rfl
    (by simp [runOnce, killedCycle])).1

/-- C3, as stated, fails: `Stop` calls `Kill(nil)` while the workers run, a
worker then fails, the `select` takes the dying case and `Run` calls
`Kill(worker)`, which replaces the nil reason; `Run` returns the worker's
error, not nil. -/
theorem C3_counterexample :
    Tomb.zero.Err = .ErrStillAlive
      ∧ (killedCycle [stopKill] (some (.failure "worker")) none false).killsRunning
          = [none]
      ∧ Run Tomb.zero [killedCycle [stopKill] (some (.failure "worker")) none false]
          = ⟨some (some (.failure "worker")),
              [.starting, .externalKill none, .stateOpen none, .machine none,
                .runTasks (some (.failure "worker")), .stateClose,
                .kill (some (.failure "worker")),
                .returning (some (.failure "worker")), .done]⟩
      ∧ (Run Tomb.zero
          [killedCycle [stopKill] (some (.failure "worker")) none false]).ret
          ≠ some none := by
  refine ⟨rfl, rfl, rfl, ?_⟩
  have h : (Run Tomb.zero
      [killedCycle [stopKill] (some (.failure "worker")) none false]).ret
      = some (some (.failure "worker")) := rfl
  rw [h]
  simp

/-- C3, amended: when `Kill(nil)`, as made by `MachineAgent.Stop`, is the first
kill of the handle and arrives during a cycle of `Run`, and every other
external `Kill` of that cycle is a `Kill(nil)` too, `Run` returns after that
cycle.  It returns nil when the cycle leaves through the upgrade exit, when
the error carried to the `select` is nil, or when the `select` takes the timer
case; when a non-nil error is carried to the `select` (from `runOnce`, or from
a failed `ChangeAgentTools`) and the `select` takes the dying case, `Run`
records it with `Kill(err)` and returns it. -/
theorem C3_kill_nil (t : Tomb) (c : Cycle) (rest : List Cycle) (more : List Error)
    (halive : t.Err = .ErrStillAlive)
    (hkill : c.killsBefore ++ c.killsRunning ++ c.killsWaiting = stopKill :: more)
    (hmore : ∀ k ∈ more, k = none) :
    cyclesStarted (Run t (c :: rest)).trace = 1
      ∧ (Run t (c :: rest)).ret =
          some (match (upgradeStep (runOnce c).1 c.toolsErr).1 with
            | none => none
            | some err => if c.timerFirst then none else err)
      ∧ ((runOnce c).1 = none → (Run t (c :: rest)).ret = some none)
      ∧ (∀ err : GoError, (upgradeStep (runOnce c).1 c.toolsErr).1 = some (some err) →
          c.timerFirst = false → (Run t (c :: rest)).ret = some (some err)) := by
  have hat : atSelect t c = { state := .dying, reason := none } := by
    rw [atSelect_eq, hkill]
    refine Tomb.tombKillAll_nils t stopKill more ((Tomb.err_alive_iff t).mp halive) ?_
    intro k hk
    rcases List.mem_cons.mp hk with h | h
    · exact h
    · exact hmore k h
  have main : cyclesStarted (Run t (c :: rest)).trace = 1
      ∧ (Run t (c :: rest)).ret =
          some (match (upgradeStep (runOnce c).1 c.toolsErr).1 with
            | none => none
            | some err => if c.timerFirst then none else err) := by
    cases hu : (upgradeStep (runOnce c).1 c.toolsErr).1 with
    | none =>
      have hl := loop_cons_exit t c rest halive hu
      have hrun : Run t (c :: rest) = ⟨some none, bodyTrace c ++ [.done]⟩ := by
        unfold Run
        rw [hl]
      rw [hrun]
      simp only [cyclesStarted_append, cyclesStarted_bodyTrace]
      simp [cyclesStarted]
    | some carried =>
      have hrun := run_of_kill t c rest stopKill carried more halive hkill hu
      have hsel : (selectStep (atSelect t c) carried c.timerFirst).1.reason
          = if c.timerFirst then none else carried := by
        rw [hat, selectStep_of_dying _ _ _ (by simp)]
        cases c.timerFirst <;> simp [Tomb.tombKill]
      rw [hsel] at hrun
      exact ⟨hrun.2, hrun.1⟩
  refine ⟨main.1, main.2, ?_, ?_⟩
  · intro hnil
    rw [main.2, hnil]
    cases c.timerFirst <;> simp [upgradeStep]
  · intro err herr htimer
    rw [main.2, herr, htimer]
    simp

/-- Witness for C3: `Stop` arrives while the workers run and the workers then
stop cleanly; `Run` returns nil and starts no further cycle. -/
theorem C3_kill_nil_witness :
    (Run Tomb.zero
      [killedCycle [stopKill] none none false, quietCycle none none]).ret = some none
      ∧ cyclesStarted (Run Tomb.zero
          [killedCycle [stopKill] none none false, quietCycle none none]).trace = 1 :=
  ⟨((C3_kill_nil Tomb.zero (killedCycle [stopKill] none none false)
      [quietCycle none none] [] rfl rfl (by simp)).2.2.1) rfl,
    (C3_kill_nil Tomb.zero (killedCycle [stopKill] none none false)
      [quietCycle none none] [] rfl rfl (by simp)).1⟩

/-- A quiet cycle that reaches the `select` with the handle Alive: the timer
case is taken and the loop goes on from the same handle. -/
theorem loop_cons_quiet (t : Tomb) (c : Cycle) (rest : List Cycle) (err : Error)
    (halive : t.Err = .ErrStillAlive)
    (hb : c.killsBefore = []) (hr : c.killsRunning = []) (hw : c.killsWaiting = [])
    (hu : (upgradeStep (runOnce c).1 c.toolsErr).1 = some err) :
    loop t (c :: rest) =
      ⟨(loop t rest).ret,
        (.starting :: (runOnce c).2 ++ (upgradeStep (runOnce c).1 c.toolsErr).2
          ++ [.restarting err]) ++ (loop t rest).trace⟩ := by
  have hat : atSelect t c = t := by
    simp [atSelect, hb, hr, hw, Tomb.tombKillAll]
  have hd : t.Dying = false := by
    have := (Tomb.err_alive_iff t).mp halive
    simp [Tomb.Dying, this]
  have hs : selectStep t err c.timerFirst = (t, [.restarting err]) := by
    simp [selectStep, hd]
  rw [loop_cons_retry t c rest err halive hu, hat, hs]
  simp [bodyTrace, hb, hr, hw]

theorem upgradeStep_of_not_upgraded (err toolsErr : Error) (h : asUpgraded err = none) :
    upgradeStep err toolsErr = (some err, []) := by
  unfold upgradeStep
  rcases err with _ | ⟨b | m⟩ <;> simp_all [asUpgraded]

/-- A quiet cycle whose `runOnce` result is not an upgrade signal is followed
by the rest of the run, from the same handle. -/
theorem Run_cons_quiet (t : Tomb) (c : Cycle) (rest : List Cycle)
    (halive : t.Err = .ErrStillAlive)
    (hb : c.killsBefore = []) (hr : c.killsRunning = []) (hw : c.killsWaiting = [])
    (hnot : asUpgraded (runOnce c).1 = none) :
    Run t (c :: rest) =
      ⟨(Run t rest).ret,
        (.starting :: (runOnce c).2 ++ [.restarting (runOnce c).1]) ++ (Run t rest).trace⟩ := by
  have hu := upgradeStep_of_not_upgraded (runOnce c).1 c.toolsErr hnot
  have hl := loop_cons_quiet t c rest (runOnce c).1 halive hb hr hw (by rw [hu])
  rw [hu] at hl
  simp only [List.append_nil] at hl
  exact Run_of_loop_prefix t t (c :: rest) rest _ hl

theorem Run_nil_alive (t : Tomb) (halive : t.Err = .ErrStillAlive) :
    Run t [] = ⟨none, []⟩ := by
  simp [Run, loop, halive]

theorem Run_trace (t : Tomb) (sched : List Cycle) :
    (Run t sched).trace = (loop t sched).trace
      ∨ (Run t sched).trace = (loop t sched).trace ++ [.done] := by
  unfold Run
  cases hr : (loop t sched).ret <;> simp [hr]

theorem loop_cons_trace (t : Tomb) (c : Cycle) (rest : List Cycle)
    (halive : t.Err = .ErrStillAlive) :
    ∃ tl, (loop t (c :: rest)).trace = bodyTrace c ++ tl := by
  cases hu : (upgradeStep (runOnce c).1 c.toolsErr).1 with
  | none =>
    rw [loop_cons_exit t c rest halive hu]
    exact ⟨[], by simp⟩
  | some err =>
    rw [loop_cons_retry t c rest err halive hu]
    exact ⟨c.killsWaiting.map .externalKill
      ++ (selectStep (atSelect t c) err c.timerFirst).2
      ++ (loop (selectStep (atSelect t c) err c.timerFirst).1 rest).trace,
      by simp only [List.append_assoc]⟩

/-- With the handle Alive at the loop head, the run of a non-empty schedule
calls `runOnce`, after the external `Kill` calls that land before the call. -/
theorem Run_cons_alive_start (t : Tomb) (c : Cycle) (rest : List Cycle)
    (halive : t.Err = .ErrStillAlive) :
    ∃ tr, (Run t (c :: rest)).trace = c.killsBefore.map .externalKill ++ .starting :: tr := by
  obtain ⟨tl, htl⟩ := loop_cons_trace t c rest halive
  rcases Run_trace t (c :: rest) with h | h
  · rw [h, htl]
    exact ⟨c.killsRunning.map .externalKill ++ (runOnce c).2
      ++ (upgradeStep (runOnce c).1 c.toolsErr).2 ++ tl, by simp [bodyTrace]⟩
  · rw [h, htl]
    exact ⟨c.killsRunning.map .externalKill ++ (runOnce c).2
      ++ (upgradeStep (runOnce c).1 c.toolsErr).2 ++ tl ++ [.done], by simp [bodyTrace]⟩

/-- C4: a cycle of `Run` whose `runOnce` returns a non-nil error that is not an
upgrade signal, with no external `Kill` taking effect before the timer fires
and the loop head reads the handle again, does not make `Run` return: the
timer case is taken, the run continues from the loop head with the handle
still Alive, so a schedule ending here leaves `Run` running and a further
schedule entry is entered by a new `runOnce` call.  What follows `runOnce`
depends on the error only, not on whether it came from `state.Open`, the
machine lookup or the worker group. -/
theorem C4_transient_retry (t : Tomb) (c : Cycle) (rest : List Cycle) (e : GoError)
    (halive : t.Err = .ErrStillAlive)
    (hb : c.killsBefore = []) (hr : c.killsRunning = []) (hw : c.killsWaiting = [])
    (herr : (runOnce c).1 = some e)
    (hnot : asUpgraded (some e) = none) :
    Run t (c :: rest) =
        ⟨(Run t rest).ret,
          (.starting :: (runOnce c).2 ++ [.restarting (some e)]) ++ (Run t rest).trace⟩
      ∧ (Run t [c]).ret = none
      ∧ (∀ c1 rest1, ∃ tr, (Run t (c :: c1 :: rest1)).trace =
          (.starting :: (runOnce c).2 ++ [.restarting (some e)])
            ++ (c1.killsBefore.map .externalKill ++ .starting :: tr))
      ∧ (∀ c2 : Cycle, c2.killsBefore = [] → c2.killsRunning = [] → c2.killsWaiting = [] →
          (runOnce c2).1 = some e →
          (Run t (c2 :: rest)).ret = (Run t (c :: rest)).ret
            ∧ (Run t (c :: rest)).trace =
                (.starting :: (runOnce c).2) ++ .restarting (some e) :: (Run t rest).trace
            ∧ (Run t (c2 :: rest)).trace =
                (.starting :: (runOnce c2).2) ++ .restarting (some e) :: (Run t rest).trace) := by
  have key : ∀ (d : Cycle) (s : List Cycle), d.killsBefore = [] → d.killsRunning = [] →
      d.killsWaiting = [] → (runOnce d).1 = some e →
      Run t (d :: s) =
        ⟨(Run t s).ret,
          (.starting :: (runOnce d).2 ++ [.restarting (some e)]) ++ (Run t s).trace⟩ := by
    intro d s h0 h1 h2 h3
    have := Run_cons_quiet t d s halive h0 h1 h2 (by rw [h3]; exact hnot)
    rw [h3] at this
    exact this
  refine ⟨key c rest hb hr hw herr, ?_, ?_, ?_⟩
  · rw [key c [] hb hr hw herr, Run_nil_alive t halive]
  · intro c1 rest1
    obtain ⟨tr, htr⟩ := Run_cons_alive_start t c1 rest1 halive
    exact ⟨tr, by rw [key c (c1 :: rest1) hb hr hw herr, htr]⟩
  · intro c2 h0 h1 h2 h3
    rw [key c rest hb hr hw herr, key c2 rest h0 h1 h2 h3]
    simp

/-- Witness for C4: the store is unreachable in the first cycle; the second
cycle is started. -/
theorem C4_transient_retry_witness :
    (Run Tomb.zero [openFailure (.failure "unreachable"), quietCycle none none]).trace =
      [.starting, .stateOpen (some (.failure "unreachable")),
        .restarting (some (.failure "unreachable")),
        .starting, .stateOpen none, .machine none, .runTasks none, .stateClose,
        .restarting none] :=
  ((C4_transient_retry Tomb.zero (openFailure (.failure "unreachable"))
    [quietCycle none none] (.failure "unreachable") rfl rfl rfl rfl rfl rfl).1).symm ▸ rfl

/-- A cycle that reaches the `select` carrying `err` is followed by the rest
of `Run`, from the handle the `select` leaves. -/
theorem Run_cons_retry (t : Tomb) (c : Cycle) (rest : List Cycle) (err : Error)
    (halive : t.Err = .ErrStillAlive)
    (hu : (upgradeStep (runOnce c).1 c.toolsErr).1 = some err) :
    Run t (c :: rest) =
      ⟨(Run (selectStep (atSelect t c) err c.timerFirst).1 rest).ret,
        (bodyTrace c ++ c.killsWaiting.map .externalKill
          ++ (selectStep (atSelect t c) err c.timerFirst).2)
          ++ (Run (selectStep (atSelect t c) err c.timerFirst).1 rest).trace⟩ :=
  Run_of_loop_prefix t _ (c :: rest) rest _ (loop_cons_retry t c rest err halive hu)

/-- C5: when a cycle returns the upgrade signal and `ChangeAgentTools` fails
with `e1`, `Run` does not take the upgrade exit: the cycle goes on to the
`select` carrying `e1` in place of the upgrade error, and from there the run
is the one of a cycle whose `runOnce` returned the transient error `e1` under
the same external kills and the same `select` resolution. -/
theorem C5_tools_failure (t : Tomb) (c : Cycle) (rest : List Cycle) (binary : String)
    (e1 : GoError)
    (halive : t.Err = .ErrStillAlive)
    (hup : (runOnce c).1 = some (.upgraded binary))
    (htools : c.toolsErr = some e1) :
    upgradeStep (runOnce c).1 c.toolsErr
        = (some (some e1), [.changeAgentTools binary (some e1)])
      ∧ Run t (c :: rest) =
          ⟨(Run (selectStep (atSelect t c) (some e1) c.timerFirst).1 rest).ret,
            (c.killsBefore.map .externalKill
              ++ (.starting :: c.killsRunning.map .externalKill ++ (runOnce c).2
                ++ [.changeAgentTools binary (some e1)]))
              ++ (c.killsWaiting.map .externalKill
                ++ (selectStep (atSelect t c) (some e1) c.timerFirst).2
                ++ (Run (selectStep (atSelect t c) (some e1) c.timerFirst).1 rest).trace)⟩
      ∧ (∀ c2 : Cycle, c2.killsBefore = c.killsBefore → c2.killsRunning = c.killsRunning →
          c2.killsWaiting = c.killsWaiting → c2.timerFirst = c.timerFirst →
          (runOnce c2).1 = some e1 → asUpgraded (some e1) = none →
          Run t (c2 :: rest) =
            ⟨(Run (selectStep (atSelect t c) (some e1) c.timerFirst).1 rest).ret,
              (c.killsBefore.map .externalKill
                ++ (.starting :: c.killsRunning.map .externalKill ++ (runOnce c2).2))
                ++ (c.killsWaiting.map .externalKill
                  ++ (selectStep (atSelect t c) (some e1) c.timerFirst).2
                  ++ (Run (selectStep (atSelect t c) (some e1) c.timerFirst).1 rest).trace)⟩) := by
  have hu : upgradeStep (runOnce c).1 c.toolsErr
      = (some (some e1), [.changeAgentTools binary (some e1)]) := by
    rw [hup, htools]; rfl
  refine ⟨hu, ?_, ?_⟩
  · rw [Run_cons_retry t c rest (some e1) halive (by rw [hu])]
    simp [bodyTrace, hu]
  · intro c2 h0 h1 h2 h3 h4 h5
    have hu2 := upgradeStep_of_not_upgraded (runOnce c2).1 c2.toolsErr (by rw [h4]; exact h5)
    have hat : atSelect t c2 = atSelect t c := by
      simp [atSelect, h0, h1, h2]
    rw [Run_cons_retry t c2 rest (some e1) halive (by rw [hu2, h4]), hat, h3]
    simp [bodyTrace, hu2, h0, h1, h2]

/-- Witness for C5: the upgrader reports version 2.0, fetching the tools fails,
and `Run` logs the restart with the fetch error and starts the next cycle. -/
theorem C5_tools_failure_witness :
    (Run Tomb.zero
      [quietCycle (some (.upgraded "2.0")) (some (.failure "fetch")),
        quietCycle none none]).trace =
      [.starting, .stateOpen none, .machine none, .runTasks (some (.upgraded "2.0")),
        .stateClose, .changeAgentTools "2.0" (some (.failure "fetch")),
        .restarting (some (.failure "fetch")),
        .starting, .stateOpen none, .machine none, .runTasks none, .stateClose,
        .restarting none] :=
  ((C5_tools_failure Tomb.zero
    (quietCycle (some (.upgraded "2.0")) (some (.failure "fetch")))
    [quietCycle none none] "2.0" (.failure "fetch") rfl rfl rfl).2.1).symm ▸ rfl

/-- C6: in every call of `runOnce` in which `state.Open` succeeds, the opened
connection's `Close` is invoked exactly once, as the last call before
`runOnce` returns, whether the machine lookup fails or `runTasks` returns an
error or nil; when `state.Open` fails, `Close` is never invoked. -/
theorem C6_close_once (c : Cycle) :
    (runOnce c).2.count .stateClose = (if c.openErr = none then 1 else 0)
      ∧ (runOnce c).2.head? = some (.stateOpen c.openErr)
      ∧ (runOnce c).2.getLast? =
          (if c.openErr = none then some .stateClose else some (.stateOpen c.openErr)) := by
  unfold runOnce
  cases c.openErr <;> cases c.machineErr <;> simp [List.count_cons]

/-! ## Cycle starts and `Kill` calls -/

theorem isStart_eq_false_of_ne (e : Event) (h : e ≠ .starting) : e.isStart = false := by
  cases e <;> simp_all [Event.isStart]

theorem isStart_iff (e : Event) : e.isStart = true ↔ e = .starting := by
  cases e <;> simp [Event.isStart]

theorem isExternalKill_iff (e : Event) :
    e.isExternalKill = true ↔ ∃ err, e = .externalKill err := by
  cases e <;> simp [Event.isExternalKill]

theorem isKill_of_isExternalKill (e : Event) (h : e.isExternalKill = true) :
    e.isKill = true := by
  cases e <;> simp_all [Event.isExternalKill, Event.isKill]

/-- The guard after a trace. -/
theorem guarded_append (g : Guard) (xs ys : List Event) :
    guarded g (xs ++ ys) = (guarded g xs && guarded (xs.foldl Guard.step g) ys) := by
  induction xs generalizing g with
  | nil => simp [guarded]
  | cons e es ih => simp [guarded, ih, Bool.and_assoc]

theorem guarded_of_no_start (g : Guard) (xs : List Event)
    (h : Event.starting ∉ xs) : guarded g xs = true := by
  induction xs generalizing g with
  | nil => rfl
  | cons e es ih =>
    have he : e.isStart = false :=
      isStart_eq_false_of_ne e (fun h1 => h (h1 ▸ List.mem_cons_self _ _))
    have hes : Event.starting ∉ es := fun h1 => h (List.mem_cons_of_mem _ h1)
    simp [guarded, he, ih _ hes]

theorem foldl_step_of_no_kill (xs : List Event) (h : ∀ e ∈ xs, e.isKill = false) :
    xs.foldl Guard.step .clean = .clean := by
  induction xs with
  | nil => rfl
  | cons e es ih =>
    have he : e.isKill = false := h e (List.mem_cons_self _ _)
    have hx : e.isExternalKill = false := by
      cases hx : e.isExternalKill with
      | false => rfl
      | true => rw [isKill_of_isExternalKill e hx] at he; exact absurd he (by simp)
    have hstep : Guard.step .clean e = .clean := by simp [Guard.step, he, hx]
    rw [List.foldl_cons, hstep]
    exact ih (fun x hx => h x (List.mem_cons_of_mem _ hx))

theorem foldl_step_externalKill (g : Guard) (es : List Error) (hg : g ≠ .spent) :
    (es.map Event.externalKill).foldl Guard.step g ≠ .spent := by
  induction es generalizing g with
  | nil => exact hg
  | cons e es ih =>
    simp only [List.map_cons, List.foldl_cons]
    apply ih
    cases g <;> simp_all [Guard.step, Event.isExternalKill]

/-- Quiet events, cycle starts included, leave a clean guard clean. -/
theorem guarded_clean_append_quiet (xs ys : List Event)
    (h : ∀ e ∈ xs, e.isKill = false) :
    guarded .clean (xs ++ ys) = guarded .clean ys := by
  have hx : guarded .clean xs = true := by
    have : ∀ (zs : List Event), (∀ e ∈ zs, e.isKill = false) → guarded .clean zs = true := by
      intro zs
      induction zs with
      | nil => intro _; rfl
      | cons e es ih =>
        intro hz
        have he : e.isKill = false := hz e (List.mem_cons_self _ _)
        have hstep : Guard.step .clean e = .clean :=
          foldl_step_of_no_kill [e] (by simpa using he)
        simp only [guarded, hstep]
        simp [ih (fun x hx => hz x (List.mem_cons_of_mem _ hx))]
    exact this xs h
  rw [guarded_append, hx, foldl_step_of_no_kill xs h]
  simp

/-- External `Kill` calls landing before a call of `runOnce`, the call, and
then no further call. -/
theorem guarded_window_cycle (ks : List Error) (xs : List Event)
    (h : Event.starting ∉ xs) :
    guarded .clean (ks.map Event.externalKill ++ .starting :: xs) = true := by
  rw [guarded_append]
  have h1 : guarded .clean (ks.map Event.externalKill) = true :=
    guarded_of_no_start _ _ (by simp)
  have h2 := foldl_step_externalKill .clean ks (by simp)
  rw [h1]
  simp only [Bool.true_and, guarded]
  rw [guarded_of_no_start _ _ h]
  cases hg : (ks.map Event.externalKill).foldl Guard.step .clean <;> simp_all

theorem isKill_runOnce (c : Cycle) : ∀ e ∈ (runOnce c).2, e.isKill = false := by
  unfold runOnce
  cases c.openErr <;> cases c.machineErr <;> simp [Event.isKill]

theorem isKill_upgradeStep (err toolsErr : Error) :
    ∀ e ∈ (upgradeStep err toolsErr).2, e.isKill = false := by
  unfold upgradeStep
  rcases err with _ | ⟨b | m⟩ <;> cases toolsErr <;> simp [Event.isKill]

/-- In the trace of the loop, every Kill that precedes a call of `runOnce` is
an external one that landed right before that call. -/
theorem guarded_loop (t : Tomb) (sched : List Cycle) :
    guarded .clean (loop t sched).trace = true := by
  induction sched generalizing t with
  | nil =>
    unfold loop
    cases t.Err <;> rfl
  | cons c rest ih =>
    by_cases halive : t.Err = .ErrStillAlive
    · cases hu : (upgradeStep (runOnce c).1 c.toolsErr).1 with
      | none =>
        rw [loop_cons_exit t c rest halive hu]
        exact guarded_window_cycle c.killsBefore _
          (by simp [starting_not_mem_runOnce, starting_not_mem_upgradeStep])
      | some err =>
        cases hk : c.killsBefore ++ c.killsRunning ++ c.killsWaiting with
        | nil =>
          have hbr := List.append_eq_nil.mp hk
          have hb : c.killsBefore = [] := (List.append_eq_nil.mp hbr.1).1
          have hr : c.killsRunning = [] := (List.append_eq_nil.mp hbr.1).2
          have hw : c.killsWaiting = [] := hbr.2
          rw [loop_cons_quiet t c rest err halive hb hr hw hu]
          show guarded .clean ((.starting :: (runOnce c).2
            ++ (upgradeStep (runOnce c).1 c.toolsErr).2 ++ [.restarting err])
            ++ (loop t rest).trace) = true
          rw [guarded_clean_append_quiet]
          · exact ih t
          · intro e he
            simp only [List.cons_append, List.mem_cons, List.mem_append,
              List.mem_singleton, List.not_mem_nil, or_false] at he
            rcases he with he | (he | he) | he
            · subst he; rfl
            · exact isKill_runOnce c e he
            · exact isKill_upgradeStep _ _ e he
            · subst he; rfl
        | cons e more =>
          rw [loop_cons_retry t c rest err halive hu,
            loop_after_select_of_dying (atSelect t c) err c.timerFirst rest
              (atSelect_state_of_kill t c e more hk)]
          have hsel := starting_not_mem_selectStep (atSelect t c) err c.timerFirst
          have := guarded_window_cycle c.killsBefore
            (c.killsRunning.map Event.externalKill ++ (runOnce c).2
              ++ (upgradeStep (runOnce c).1 c.toolsErr).2
              ++ c.killsWaiting.map Event.externalKill
              ++ (selectStep (atSelect t c) err c.timerFirst).2
              ++ [.returning (selectStep (atSelect t c) err c.timerFirst).1.reason])
            (by simp [starting_not_mem_runOnce, starting_not_mem_upgradeStep, hsel])
          simpa [bodyTrace, List.append_assoc] using this
    · have hne : t.state ≠ .alive := fun h => halive ((Tomb.err_alive_iff t).mpr h)
      rw [loop_of_not_alive t _ hne]
      rfl

theorem guarded_Run (t : Tomb) (sched : List Cycle) :
    guarded .clean (Run t sched).trace = true := by
  have h := guarded_loop t sched
  rcases Run_trace t sched with h1 | h1
  · rw [h1]; exact h
  · rw [h1, guarded_append, h]
    simp [guarded, Event.isStart]

theorem guarded_spent_split (pre post : List Event) :
    guarded .spent (pre ++ .starting :: post) = false := by
  induction pre with
  | nil => simp [guarded, Event.isStart]
  | cons q pre ih => simp [guarded, Guard.step, ih]

theorem window_before_start (pre post : List Event)
    (h : guarded .window (pre ++ .starting :: post) = true) :
    ∃ window : List Error, pre = window.map Event.externalKill := by
  induction pre with
  | nil => exact ⟨[], rfl⟩
  | cons p pre ih =>
    cases hp : p.isExternalKill with
    | true =>
      obtain ⟨err, rfl⟩ := (isExternalKill_iff p).mp hp
      have h2 : guarded .window (pre ++ .starting :: post) = true := by
        simpa [guarded, Guard.step, Event.isExternalKill] using h
      obtain ⟨w, hw⟩ := ih h2
      exact ⟨err :: w, by rw [hw]; rfl⟩
    | false =>
      exfalso
      have h2 : guarded .spent (pre ++ .starting :: post) = true := by
        simpa [guarded, Guard.step, hp] using h
      rw [guarded_spent_split] at h2
      exact absurd h2 (by simp)

/-- What the scan establishes for a call of `runOnce`: the Kill calls before
it, if any, are external ones that landed right before the call, after a
stretch without any Kill. -/
theorem kills_before_start_of_scan (pre post : List Event)
    (h : guarded .clean (pre ++ .starting :: post) = true) :
    ∃ (head : List Event) (window : List Error),
      pre = head ++ window.map Event.externalKill ∧ ∀ e ∈ head, e.isKill = false := by
  induction pre with
  | nil => exact ⟨[], [], rfl, by simp⟩
  | cons p pre ih =>
    cases hp : p.isExternalKill with
    | true =>
      obtain ⟨err, rfl⟩ := (isExternalKill_iff p).mp hp
      have h2 : guarded .window (pre ++ .starting :: post) = true := by
        simpa [guarded, Guard.step, Event.isExternalKill] using h
      obtain ⟨w, hw⟩ := window_before_start pre post h2
      exact ⟨[], err :: w, by rw [hw]; rfl, by simp⟩
    | false =>
      cases hk : p.isKill with
      | true =>
        exfalso
        have h2 : guarded .spent (pre ++ .starting :: post) = true := by
          simpa [guarded, Guard.step, hp, hk] using h
        rw [guarded_spent_split] at h2
        exact absurd h2 (by simp)
      | false =>
        have h2 : guarded .clean (pre ++ .starting :: post) = true := by
          simpa [guarded, Guard.step, hp, hk] using h
        obtain ⟨head, w, hpre, hhead⟩ := ih h2
        refine ⟨p :: head, w, by rw [hpre]; rfl, ?_⟩
        intro e he
        rcases List.mem_cons.mp he with rfl | he2
        · exact hk
        · exact hhead e he2

theorem cyclesStarted_of_spent (xs : List Event) (h : guarded .spent xs = true) :
    cyclesStarted xs = 0 := by
  induction xs with
  | nil => rfl
  | cons x xs ih =>
    have hx : x.isStart = false := by
      cases hs : x.isStart with
      | false => rfl
      | true => simp [guarded, hs] at h
    have h2 : guarded .spent xs = true := by
      simpa [guarded, Guard.step, hx] using h
    have hne : x ≠ .starting := fun he => by
      rw [he] at hx; simp [Event.isStart] at hx
    have := ih h2
    simp only [cyclesStarted] at this ⊢
    rw [List.count_cons, this]
    simp [hne]

theorem cyclesStarted_of_window (xs : List Event) (h : guarded .window xs = true) :
    cyclesStarted xs ≤ 1 := by
  induction xs with
  | nil => simp [cyclesStarted]
  | cons x xs ih =>
    cases hp : x.isExternalKill with
    | true =>
      obtain ⟨err, rfl⟩ := (isExternalKill_iff x).mp hp
      have h2 : guarded .window xs = true := by
        simpa [guarded, Guard.step, Event.isExternalKill] using h
      have := ih h2
      simp only [cyclesStarted] at this ⊢
      rw [List.count_cons]
      simpa using this
    | false =>
      have h2 : guarded .spent xs = true := by
        simpa [guarded, Guard.step, hp] using h
      have := cyclesStarted_of_spent xs h2
      simp only [cyclesStarted] at this ⊢
      rw [List.count_cons, this]
      split <;> simp

theorem step_of_isKill (g : Guard) (e : Event) (h : e.isKill = true) :
    g.step e ≠ .clean := by
  cases g <;> cases hx : e.isExternalKill <;> simp [Guard.step, hx, h]

/-- After any Kill in a guarded trace, at most one call of `runOnce`. -/
theorem cyclesStarted_after_kill_of_scan (pre post : List Event) (e : Event)
    (h : guarded .clean (pre ++ e :: post) = true) (he : e.isKill = true) :
    cyclesStarted post ≤ 1 := by
  rw [guarded_append] at h
  simp only [Bool.and_eq_true, guarded] at h
  have hpost := h.2.2
  have hg := step_of_isKill (pre.foldl Guard.step .clean) e he
  cases hs : (pre.foldl Guard.step .clean).step e with
  | clean => exact absurd hs hg
  | window =>
    rw [hs] at hpost
    exact cyclesStarted_of_window post hpost
  | spent =>
    rw [hs] at hpost
    rw [cyclesStarted_of_spent post hpost]
    exact Nat.zero_le 1

theorem replay_of_no_kill (t : Tomb) (tr : List Event)
    (h : ∀ e ∈ tr, e.isKill = false) : replay t tr = t := by
  induction tr with
  | nil => rfl
  | cons e es ih =>
    have he := h e (List.mem_cons_self _ _)
    have hes := ih (fun x hx => h x (List.mem_cons_of_mem _ hx))
    cases e <;> simp_all [replay, Event.isKill]

theorem cyclesStarted_Run_of_not_alive (t : Tomb) (sched : List Cycle)
    (h : t.Err ≠ .ErrStillAlive) : cyclesStarted (Run t sched).trace = 0 := by
  have hne : t.state ≠ .alive := fun h1 => h ((Tomb.err_alive_iff t).mpr h1)
  unfold Run
  rw [loop_of_not_alive t sched hne]
  simp [cyclesStarted]

/-- A cycle during which the handle is killed is the last one started. -/
theorem cyclesStarted_of_kill (t : Tomb) (c : Cycle) (rest : List Cycle) (e : Error)
    (more : List Error)
    (halive : t.Err = .ErrStillAlive)
    (hkill : c.killsBefore ++ c.killsRunning ++ c.killsWaiting = e :: more) :
    cyclesStarted (Run t (c :: rest)).trace = 1 := by
  cases hu : (upgradeStep (runOnce c).1 c.toolsErr).1 with
  | none =>
    have hl := loop_cons_exit t c rest halive hu
    have hrun : Run t (c :: rest) = ⟨some none, bodyTrace c ++ [.done]⟩ := by
      unfold Run
      rw [hl]
    rw [hrun]
    simp only [cyclesStarted_append, cyclesStarted_bodyTrace]
    simp [cyclesStarted]
  | some err => exact (run_of_kill t c rest e err more halive hkill hu).2

/-- C7, as stated, fails: the loop head reads the handle as Alive, `Stop` then
calls `Kill(nil)`, and `runOnce` is called all the same: a cycle is started
after the handle has left Alive. -/
theorem C7_counterexample :
    Tomb.zero.Err = .ErrStillAlive
      ∧ (Run Tomb.zero [windowCycle [stopKill] none]).trace =
          [.externalKill none] ++ .starting ::
            [.stateOpen none, .machine none, .runTasks none, .stateClose,
              .kill none, .returning none, .done]
      ∧ (replay Tomb.zero [.externalKill none]).Err = .recorded none
      ∧ (replay Tomb.zero [.externalKill none]).Err ≠ .ErrStillAlive := by
  refine ⟨rfl, rfl, rfl, ?_⟩
  have h : (replay Tomb.zero [.externalKill none]).Err = .recorded none := rfl
  rw [h]
  simp

/-- C7, amended: external stop is honoured with no retry.  In every run of
`Run`, a handle that has left Alive before `Run` begins starts no cycle; each
call of `runOnce` follows a loop-head read that found the handle Alive, the
only `Kill` calls that can precede the call being external ones landing
between that read and the call; so after any `Kill`, at most one call of
`runOnce` follows.  In particular, when the `select` after a cycle finds the
dying signal ready, then whichever case it takes (dying or timer), that cycle
is the only one started. -/
theorem C7_no_retry_after_stop (t : Tomb) (sched : List Cycle) :
    (t.Err = .ErrStillAlive ∨ cyclesStarted (Run t sched).trace = 0)
      ∧ (∀ pre post, (Run t sched).trace = pre ++ .starting :: post →
          ∃ (head : List Event) (window : List Error),
            pre = head ++ window.map Event.externalKill
              ∧ (∀ e ∈ head, e.isKill = false)
              ∧ (replay t head).Err = .ErrStillAlive)
      ∧ (∀ pre e post, (Run t sched).trace = pre ++ e :: post → e.isKill = true →
          cyclesStarted post ≤ 1)
      ∧ (∀ (c : Cycle) (rest : List Cycle) (b : Bool),
          t.Err = .ErrStillAlive → (atSelect t c).Dying = true →
          cyclesStarted (Run t ({ c with timerFirst := b } :: rest)).trace = 1) := by
  refine ⟨?_, ?_, ?_, ?_⟩
  · by_cases h : t.Err = .ErrStillAlive
    · exact Or.inl h
    · exact Or.inr (cyclesStarted_Run_of_not_alive t sched h)
  · intro pre post hsplit
    have hg := guarded_Run t sched
    rw [hsplit] at hg
    obtain ⟨head, window, hpre, hhead⟩ := kills_before_start_of_scan pre post hg
    refine ⟨head, window, hpre, hhead, ?_⟩
    rw [replay_of_no_kill t head hhead]
    by_contra hne
    have h0 := cyclesStarted_Run_of_not_alive t sched hne
    rw [hsplit] at h0
    simp [cyclesStarted, List.count_append] at h0
  · intro pre e post hsplit he
    have hg := guarded_Run t sched
    rw [hsplit] at hg
    exact cyclesStarted_after_kill_of_scan pre post e hg he
  · intro c rest b halive hd
    cases hk : c.killsBefore ++ c.killsRunning ++ c.killsWaiting with
    | nil =>
      exfalso
      have hat : atSelect t c = t := by rw [atSelect_eq, hk]; rfl
      have hst := (Tomb.err_alive_iff t).mp halive
      rw [hat] at hd
      simp [Tomb.Dying, hst] at hd
    | cons e more =>
      exact cyclesStarted_of_kill t { c with timerFirst := b } rest e more halive hk

/-- C8: `Kill` is first-writer-wins.  After any sequence of `Kill` calls on a
handle that was Alive, with errors `e1` and then `es` (nil allowed, e.g.
`Stop` calling `Kill(nil)` and `Run` then calling `Kill(err)`), `Err` reports
`e1`, and so does `Wait` once the handle is `Done`. -/
theorem C8_first_kill_wins (t : Tomb) (e1 : Error) (es : List Error)
    (halive : t.state = .alive) :
    (t.killAll (e1 :: es)).Err = .recorded e1
      ∧ ((t.killAll (e1 :: es)).Done.bind Tomb.Wait) = some e1 := by
  rw [Tomb.killAll_cons_of_alive t e1 es halive]
  exact ⟨rfl, rfl⟩

/-- Witness for C8: `Stop` calls `Kill(nil)`, then `Run` calls `Kill(err)`
after the failed cycle; the recorded error stays nil. -/
theorem C8_first_kill_wins_witness :
    (Tomb.zero.killAll [stopKill, some (.failure "worker")]).Err = .recorded none :=
  (C8_first_kill_wins Tomb.zero stopKill [some (.failure "worker")] rfl).1

/-! ## The worker-group runner -/

theorem lookup_observe (results : List Error) (order : List Nat) (i : Nat) (h : i ∈ order) :
    (observe results order).lookup i = some (results.getD i none) := by
  induction order with
  | nil => simp at h
  | cons j js ih =>
    unfold observe
    simp only [List.map_cons, List.lookup_cons]
    by_cases hij : i = j
    · subst hij; simp
    · have : (i == j) = false := by simpa using hij
      rw [this]
      have hmem : i ∈ js := by
        rcases List.mem_cons.mp h with h1 | h1
        · exact absurd h1 hij
        · exact h1
      exact ih hmem

theorem findSome_range (results : List Error) :
    (List.range results.length).findSome? (fun i => results.getD i none)
      = results.findSome? id := by
  induction results with
  | nil => rfl
  | cons r rs ih =>
    rw [List.length_cons, List.range_succ_eq_map]
    cases r with
    | some e => simp
    | none =>
      simp only [List.findSome?_cons, List.getD_cons_zero, List.findSome?_map, id]
      rw [← ih]
      congr

theorem findSome_congr {α β : Type} (f g : α → Option β) (l : List α)
    (h : ∀ x ∈ l, f x = g x) : l.findSome? f = l.findSome? g := by
  induction l with
  | nil => rfl
  | cons a as ih =>
    simp only [List.findSome?_cons]
    rw [h a (List.mem_cons_self _ _), ih (fun x hx => h x (List.mem_cons_of_mem _ hx))]

theorem RunGroup_eq (cancel : Bool) (results : List Error) (order : List Nat)
    (h : order.Perm (List.range results.length)) :
    RunGroup cancel results.length (observe results order) = results.findSome? id := by
  have hfind : (List.range results.length).findSome?
      (fun i => ((observe results order).lookup i).join) = results.findSome? id := by
    rw [← findSome_range]
    apply findSome_congr
    intro i hi
    rw [lookup_observe results order i (h.mem_iff.mpr hi)]
    rfl
  unfold RunGroup
  split
  · rename_i hc
    simp only [Bool.and_eq_true, List.all_eq_true] at hc
    symm
    rw [List.findSome?_eq_none_iff]
    intro x hx
    obtain ⟨i, hi, rfl⟩ := List.getElem_of_mem hx
    have hmem : i ∈ order := h.mem_iff.mpr (List.mem_range.mpr hi)
    have := hc.2 (i, results.getD i none) (by
      unfold observe
      exact List.mem_map.mpr ⟨i, hmem, rfl⟩)
    rw [List.getD_eq_getElem?_getD, List.getElem?_eq_getElem hi] at this
    simpa using this
  · exact hfind

theorem findSome_first (pre post : List Error) (e : GoError)
    (hpre : ∀ r ∈ pre, r = none) :
    (pre ++ some e :: post).findSome? id = some e := by
  induction pre with
  | nil => rfl
  | cons r rs ih =>
    have hr : r = none := hpre r (List.mem_cons_self _ _)
    subst hr
    simpa using ih (fun x hx => hpre x (List.mem_cons_of_mem _ hx))

theorem exists_first_error (results : List Error) (h : ∃ e, some e ∈ results) :
    ∃ pre e post, results = pre ++ some e :: post ∧ ∀ r ∈ pre, r = none := by
  induction results with
  | nil =>
    obtain ⟨e, he⟩ := h
    simp at he
  | cons r rs ih =>
    cases r with
    | some e => exact ⟨[], e, rs, rfl, by simp⟩
    | none =>
      obtain ⟨e, he⟩ := h
      have he2 : some e ∈ rs := by
        rcases List.mem_cons.mp he with h1 | h1
        · exact absurd h1 (by simp)
        · exact h1
      obtain ⟨pre, e1, post, hsplit, hpre⟩ := ih ⟨e, he2⟩
      refine ⟨none :: pre, e1, post, by rw [hsplit]; rfl, ?_⟩
      intro x hx
      rcases List.mem_cons.mp hx with h1 | h1
      · exact h1
      · exact hpre x h1

/-- C9: for a worker set in which at least one worker terminates with a
non-nil error, `RunGroup` returns the first non-nil error in the order the
workers were supplied, whether or not the shutdown was triggered by the
cancel signal and whatever the order in which the workers terminated; when
exactly one worker terminates with a non-nil error and the others with nil,
that error is returned. -/
theorem C9_first_error_in_supplied_order (cancel : Bool) (results : List Error)
    (order : List Nat)
    (horder : order.Perm (List.range results.length))
    (herr : ∃ e, some e ∈ results) :
    (∃ pre e post, results = pre ++ some e :: post ∧ (∀ r ∈ pre, r = none)
        ∧ RunGroup cancel results.length (observe results order) = some e)
      ∧ (∀ order2 : List Nat, order2.Perm (List.range results.length) →
          RunGroup cancel results.length (observe results order2)
            = RunGroup cancel results.length (observe results order))
      ∧ (∀ pre e post, results = pre ++ some e :: post →
          (∀ r ∈ pre, r = none) → (∀ r ∈ post, r = none) →
          RunGroup cancel results.length (observe results order) = some e) := by
  refine ⟨?_, ?_, ?_⟩
  · obtain ⟨pre, e, post, hsplit, hpre⟩ := exists_first_error results herr
    refine ⟨pre, e, post, hsplit, hpre, ?_⟩
    rw [RunGroup_eq cancel results order horder]
    rw [hsplit]
    exact findSome_first pre post e hpre
  · intro order2 h2
    rw [RunGroup_eq cancel results order horder, RunGroup_eq cancel results order2 h2]
  · intro pre e post hsplit hpre _
    rw [RunGroup_eq cancel results order horder]
    rw [hsplit]
    exact findSome_first pre post e hpre

/-- Witness for C9: three workers, the third terminates first; the second and
the third fail, and the error of the second is the result. -/
theorem C9_first_error_in_supplied_order_witness :
    RunGroup false 3
      (observe [none, some (.failure "machiner"), some (.failure "upgrader")] [2, 0, 1])
      = RunGroup false 3
        (observe [none, some (.failure "machiner"), some (.failure "upgrader")] [0, 1, 2]) :=
  (C9_first_error_in_supplied_order false
    [none, some (.failure "machiner"), some (.failure "upgrader")] [0, 1, 2]
    (List.Perm.refl _) ⟨.failure "machiner", by simp⟩).2.1 [2, 0, 1] (by decide)

/-! ## How `Run` returns -/

theorem replay_append (t : Tomb) (xs ys : List Event) :
    replay t (xs ++ ys) = replay (replay t xs) ys := by
  induction xs generalizing t with
  | nil => rfl
  | cons x xs ih =>
    cases x <;> simp [replay, ih]

theorem replay_externalKill (t : Tomb) (es : List Error) :
    replay t (es.map Event.externalKill) = t.tombKillAll es := by
  induction es generalizing t with
  | nil => rfl
  | cons e es ih =>
    simp only [List.map_cons, replay, ih]
    rfl

theorem replay_bodyTrace (t : Tomb) (c : Cycle) :
    replay t (bodyTrace c) = (t.tombKillAll c.killsBefore).tombKillAll c.killsRunning := by
  have h1 := replay_of_no_kill ((t.tombKillAll c.killsBefore).tombKillAll c.killsRunning)
    (runOnce c).2 (isKill_runOnce c)
  have h2 := replay_of_no_kill ((t.tombKillAll c.killsBefore).tombKillAll c.killsRunning)
    (upgradeStep (runOnce c).1 c.toolsErr).2 (isKill_upgradeStep _ _)
  have hb : bodyTrace c = c.killsBefore.map Event.externalKill ++ ([.starting]
      ++ (c.killsRunning.map Event.externalKill
        ++ (runOnce c).2 ++ (upgradeStep (runOnce c).1 c.toolsErr).2)) := by
    simp [bodyTrace]
  rw [hb, replay_append, replay_externalKill, replay_append, replay_append, replay_append,
    replay_externalKill]
  have h0 : replay (t.tombKillAll c.killsBefore) [Event.starting]
      = t.tombKillAll c.killsBefore := rfl
  rw [h0, h1, h2]

theorem replay_selectStep (t : Tomb) (err : Error) (b : Bool) :
    replay t (selectStep t err b).2 = (selectStep t err b).1 := by
  unfold selectStep
  split <;> rfl

/-- The handle after a cycle that went through the `select`. -/
theorem replay_cycle (t : Tomb) (c : Cycle) (err : Error) :
    replay t (bodyTrace c ++ c.killsWaiting.map .externalKill
        ++ (selectStep (atSelect t c) err c.timerFirst).2)
      = (selectStep (atSelect t c) err c.timerFirst).1 := by
  rw [replay_append, replay_append, replay_bodyTrace, replay_externalKill]
  exact replay_selectStep (atSelect t c) err c.timerFirst

theorem upgradeStep_exit_trace (err toolsErr : Error)
    (h : (upgradeStep err toolsErr).1 = none) :
    ∃ binary, (upgradeStep err toolsErr).2 = [.changeAgentTools binary none, .exiting] := by
  unfold upgradeStep at h ⊢
  rcases err with _ | ⟨b | m⟩ <;> cases toolsErr <;> simp_all

/-- The two ways in which the loop ends: the upgrade exit, which returns nil,
or the loop head finding that the handle has left Alive, which returns the
recorded error. -/
theorem loop_ret_cases (t : Tomb) (sched : List Cycle) (r : Error)
    (h : (loop t sched).ret = some r) :
    (r = none ∧ ∃ pre, (loop t sched).trace = pre ++ [.exiting])
      ∨ (∃ pre, (loop t sched).trace = pre ++ [.returning r]
          ∧ (replay t pre).Err = .recorded r) := by
  induction sched generalizing t with
  | nil =>
    by_cases halive : t.Err = .ErrStillAlive
    · simp [loop, halive] at h
    · have hne : t.state ≠ .alive := fun h1 => halive ((Tomb.err_alive_iff t).mpr h1)
      rw [loop_of_not_alive t [] hne] at h ⊢
      simp only [Option.some.injEq] at h
      subst h
      exact Or.inr ⟨[], rfl, Tomb.err_of_not_alive t hne⟩
  | cons c rest ih =>
    by_cases halive : t.Err = .ErrStillAlive
    · cases hu : (upgradeStep (runOnce c).1 c.toolsErr).1 with
      | none =>
        rw [loop_cons_exit t c rest halive hu] at h ⊢
        simp only [Option.some.injEq] at h
        obtain ⟨binary, hb⟩ := upgradeStep_exit_trace _ _ hu
        refine Or.inl ⟨h.symm, ?_⟩
        refine ⟨c.killsBefore.map .externalKill
          ++ (.starting :: c.killsRunning.map .externalKill ++ (runOnce c).2
            ++ [.changeAgentTools binary none]), ?_⟩
        simp [bodyTrace, hb]
      | some err =>
        rw [loop_cons_retry t c rest err halive hu] at h ⊢
        simp only at h
        rcases ih _ h with ⟨hr, pre, hpre⟩ | ⟨pre, hpre, herr⟩
        · refine Or.inl ⟨hr, ?_⟩
          refine ⟨bodyTrace c ++ c.killsWaiting.map .externalKill
            ++ (selectStep (atSelect t c) err c.timerFirst).2 ++ pre, ?_⟩
          simp only [hpre, List.append_assoc]
        · refine Or.inr ⟨bodyTrace c ++ c.killsWaiting.map .externalKill
            ++ (selectStep (atSelect t c) err c.timerFirst).2 ++ pre, ?_, ?_⟩
          · simp only [hpre, List.append_assoc]
          · rw [replay_append, replay_cycle]
            exact herr
    · have hne : t.state ≠ .alive := fun h1 => halive ((Tomb.err_alive_iff t).mpr h1)
      rw [loop_of_not_alive t _ hne] at h ⊢
      simp only [Option.some.injEq] at h
      subst h
      exact Or.inr ⟨[], rfl, Tomb.err_of_not_alive t hne⟩

theorem Run_of_ret_some (t : Tomb) (sched : List Cycle) (r : Error)
    (h : (Run t sched).ret = some r) :
    (Run t sched).trace = (loop t sched).trace ++ [.done] := by
  have hl : (loop t sched).ret = some r := by rw [← Run_ret]; exact h
  unfold Run
  simp [hl]

/-- A handle that is Alive when the `select` of a cycle is reached has not
been killed during the cycle. -/
theorem kills_nil_of_atSelect_alive (t : Tomb) (c : Cycle)
    (hsel : (atSelect t c).Err = .ErrStillAlive) :
    c.killsBefore = [] ∧ c.killsRunning = [] ∧ c.killsWaiting = [] := by
  have hst := (Tomb.err_alive_iff _).mp hsel
  cases hk : c.killsBefore ++ c.killsRunning ++ c.killsWaiting with
  | nil =>
    have hbr := List.append_eq_nil.mp hk
    exact ⟨(List.append_eq_nil.mp hbr.1).1, (List.append_eq_nil.mp hbr.1).2, hbr.2⟩
  | cons e more => exact absurd hst (atSelect_state_of_kill t c e more hk)

/-- C13: `Run` returns only through the upgrade exit, with nil, or from the
loop head once the handle has left Alive, with the recorded error.  A cycle
that does not end in a successful upgrade (an `*UpgradedError` from `runOnce`
with `ChangeAgentTools` succeeding) and whose `select` finds the handle still
Alive takes the timer case: `Run` does not return, the loop head finds the
handle Alive and a further schedule entry is entered by a new `runOnce` call.
This includes a cycle whose `runOnce` returns nil, after which the restart is
logged with a nil error. -/
theorem C13_returns_only_by_upgrade_or_stop (t : Tomb) (sched : List Cycle) :
    (∀ r, (Run t sched).ret = some r →
        (r = none ∧ ∃ pre, (Run t sched).trace = pre ++ [.exiting, .done])
          ∨ (∃ pre, (Run t sched).trace = pre ++ [.returning r, .done]
              ∧ (replay t pre).Err = .recorded r))
      ∧ (∀ (c : Cycle) (rest : List Cycle),
          t.Err = .ErrStillAlive → (atSelect t c).Err = .ErrStillAlive →
          ¬ ((∃ binary, (runOnce c).1 = some (.upgraded binary)) ∧ c.toolsErr = none) →
          ∃ err, (upgradeStep (runOnce c).1 c.toolsErr).1 = some err
            ∧ Run t (c :: rest) =
                ⟨(Run t rest).ret, (bodyTrace c ++ [.restarting err]) ++ (Run t rest).trace⟩
            ∧ (Run t [c]).ret = none
            ∧ (∀ c1 rest1, ∃ tr, (Run t (c :: c1 :: rest1)).trace =
                (bodyTrace c ++ [.restarting err])
                  ++ (c1.killsBefore.map .externalKill ++ .starting :: tr)))
      ∧ (∀ (c : Cycle) (rest : List Cycle),
          t.Err = .ErrStillAlive → (atSelect t c).Err = .ErrStillAlive →
          (runOnce c).1 = none →
          Run t (c :: rest) =
            ⟨(Run t rest).ret,
              (.starting :: (runOnce c).2 ++ [.restarting none]) ++ (Run t rest).trace⟩) := by
  refine ⟨?_, ?_, ?_⟩
  · intro r hr
    have hl : (loop t sched).ret = some r := by rw [← Run_ret]; exact hr
    rw [Run_of_ret_some t sched r hr]
    rcases loop_ret_cases t sched r hl with ⟨h0, pre, hpre⟩ | ⟨pre, hpre, herr⟩
    · exact Or.inl ⟨h0, pre, by rw [hpre]; simp⟩
    · exact Or.inr ⟨pre, by rw [hpre]; simp, herr⟩
  · intro c rest halive hsel hnot
    obtain ⟨hb, hr, hw⟩ := kills_nil_of_atSelect_alive t c hsel
    have hne : (upgradeStep (runOnce c).1 c.toolsErr).1 ≠ none :=
      fun h => hnot ((upgradeStep_eq_none_iff _ _).mp h)
    obtain ⟨err, herr⟩ := Option.ne_none_iff_exists'.mp hne
    have key : ∀ s : List Cycle, Run t (c :: s) =
        ⟨(Run t s).ret, (bodyTrace c ++ [.restarting err]) ++ (Run t s).trace⟩ := by
      intro s
      have hl := loop_cons_quiet t c s err halive hb hr hw herr
      have hbt : bodyTrace c = .starting :: (runOnce c).2
          ++ (upgradeStep (runOnce c).1 c.toolsErr).2 := by
        simp [bodyTrace, hb, hr]
      rw [← hbt] at hl
      exact Run_of_loop_prefix t t (c :: s) s _ hl
    refine ⟨err, herr, key rest, ?_, ?_⟩
    · rw [key [], Run_nil_alive t halive]
    · intro c1 rest1
      obtain ⟨tr, htr⟩ := Run_cons_alive_start t c1 rest1 halive
      exact ⟨tr, by rw [key (c1 :: rest1), htr]⟩
  · intro c rest halive hsel hnil
    obtain ⟨hb, hr, hw⟩ := kills_nil_of_atSelect_alive t c hsel
    have := Run_cons_quiet t c rest halive hb hr hw (by rw [hnil]; rfl)
    rw [hnil] at this
    exact this

end Jujud

namespace Cloud

theorem stringLess_irrefl (x : GoString) : stringLess x x = false := by
  induction x with
  | nil => rfl
  | cons a as ih => simp [stringLess, ih]

theorem stringLess_trans (x y z : GoString) (h1 : stringLess x y = true)
    (h2 : stringLess y z = true) : stringLess x z = true := by
  induction x generalizing y z with
  | nil =>
    cases y with
    | nil => simp [stringLess] at h1
    | cons b bs =>
      cases z with
      | nil => simp [stringLess] at h2
      | cons c cs => rfl
  | cons a as ih =>
    cases y with
    | nil => simp [stringLess] at h1
    | cons b bs =>
      cases z with
      | nil => simp [stringLess] at h2
      | cons c cs =>
        simp only [stringLess] at h1 h2 ⊢
        rcases lt_trichotomy a b with hab | hab | hab
        · rcases lt_trichotomy b c with hbc | hbc | hbc
          · simp [lt_trans hab hbc]
          · subst hbc; simp [hab]
          · simp [hbc, not_lt_of_lt hbc] at h2
        · subst hab
          rcases lt_trichotomy a c with hbc | hbc | hbc
          · simp [hbc]
          · subst hbc
            simp only [lt_irrefl, if_false] at h1 h2 ⊢
            exact ih _ _ h1 h2
          · simp [hbc, not_lt_of_lt hbc] at h2
        · simp [hab, not_lt_of_lt hab] at h1

theorem stringLess_total (x y : GoString) :
    stringLess x y = true ∨ x = y ∨ stringLess y x = true := by
  induction x generalizing y with
  | nil =>
    cases y with
    | nil => exact Or.inr (Or.inl rfl)
    | cons b bs => exact Or.inl rfl
  | cons a as ih =>
    cases y with
    | nil => exact Or.inr (Or.inr rfl)
    | cons b bs =>
      simp only [stringLess]
      rcases lt_trichotomy a b with hab | hab | hab
      · simp [hab]
      · subst hab
        simp only [lt_irrefl, if_false]
        rcases ih bs with h | h | h
        · exact Or.inl h
        · exact Or.inr (Or.inl (by rw [h]))
        · exact Or.inr (Or.inr h)
      · simp [hab]

theorem stringLess_asymm (x y : GoString) (h : stringLess x y = true) :
    stringLess y x = false := by
  cases h2 : stringLess y x with
  | false => rfl
  | true =>
    have := stringLess_trans x y x h h2
    rw [stringLess_irrefl] at this
    exact absurd this (by simp)

theorem Less_irrefl (x : GoString) : Less x x = false := by
  simp [Less, stringLess_irrefl]

theorem Less_asymm (x y : GoString) (h : Less x y = true) : Less y x = false := by
  unfold Less at h ⊢
  cases hx : HasPrefix x localPrefix <;> cases hy : HasPrefix y localPrefix <;>
    simp_all [stringLess_asymm]

theorem Less_trans (x y z : GoString) (h1 : Less x y = true) (h2 : Less y z = true) :
    Less x z = true := by
  unfold Less at h1 h2 ⊢
  cases hx : HasPrefix x localPrefix <;> cases hy : HasPrefix y localPrefix <;>
    cases hz : HasPrefix z localPrefix <;>
    simp_all <;> exact stringLess_trans _ _ _ h1 h2

theorem eq_of_not_Less (x y : GoString) (h1 : Less x y = false) (h2 : Less y x = false) :
    x = y := by
  unfold Less at h1 h2
  cases hx : HasPrefix x localPrefix <;> cases hy : HasPrefix y localPrefix <;>
    simp_all
  all_goals
    rcases stringLess_total x y with h | h | h
    · simp [h] at h1
    · exact h
    · simp [h] at h2

instance : IsTotal GoString notAfter where
  total x y := by
    unfold notAfter
    cases h : Less y x with
    | false => exact Or.inl rfl
    | true => exact Or.inr (Less_asymm y x h)

instance : IsTrans GoString notAfter where
  trans x y z hxy hyz := by
    unfold notAfter at *
    cases h : Less z x with
    | false => rfl
    | true =>
      exfalso
      cases hzy : Less z y with
      | true => simp [hzy] at hyz
      | false =>
        by_cases hyz2 : z = y
        · subst hyz2; simp [h] at hxy
        · cases hyz3 : Less y z with
          | false => exact hyz2 (eq_of_not_Less z y hzy hyz3)
          | true =>
            have := Less_trans y z x hyz3 h
            simp [this] at hxy

instance : IsAntisymm GoString notAfter where
  antisymm x y hxy hyx := eq_of_not_Less x y hyx hxy

/-- C10: sorting a list of cloud names with `cloudSourceOrder` yields a
permutation of the list in which no name with the "local:" prefix comes before
a name without it and, within each of the two groups, a later name is never
smaller than an earlier one in string order; `Less` is irreflexive, asymmetric
and transitive, and two names neither of which is `Less` than the other are
equal, so `Less` is a strict weak (indeed total) order; every permutation of
the names that is ordered by `Less` is the list the sort returns. -/
theorem C10_cloud_order (names : List GoString) :
    (sortNames names).Perm names
      ∧ (sortNames names).Pairwise (fun x y =>
          (HasPrefix x localPrefix = true → HasPrefix y localPrefix = true)
            ∧ (HasPrefix x localPrefix = HasPrefix y localPrefix →
                stringLess y x = false))
      ∧ ((∀ x, Less x x = false)
          ∧ (∀ x y, Less x y = true → Less y x = false)
          ∧ (∀ x y z, Less x y = true → Less y z = true → Less x z = true)
          ∧ (∀ x y, Less x y = false → Less y x = false → x = y))
      ∧ (∀ sorted : List GoString, sorted.Perm names →
          sorted.Pairwise (fun x y => Less y x = false) → sorted = sortNames names) := by
  have hsorted : (sortNames names).Sorted notAfter := List.sorted_insertionSort notAfter names
  have hperm : (sortNames names).Perm names := List.perm_insertionSort notAfter names
  refine ⟨hperm, ?_, ⟨Less_irrefl, Less_asymm, Less_trans, eq_of_not_Less⟩, ?_⟩
  · refine List.Pairwise.imp ?_ hsorted
    intro x y hxy
    unfold notAfter Less at hxy
    cases hx : HasPrefix x localPrefix <;> cases hy : HasPrefix y localPrefix <;>
      simp_all
  · intro sorted hp hs
    have hs2 : sorted.Sorted notAfter := hs
    exact List.eq_of_perm_of_sorted (hp.trans hperm.symm) hs2 hsorted

end Cloud

namespace Filepath

open Cloud (GoString lit)

theorem IsAbs_iff (path : GoString) :
    IsAbs path = true ↔ ∃ tail, path = Separator :: tail := by
  unfold IsAbs
  cases path with
  | nil => simp [List.isPrefixOf]
  | cons b bs =>
    simp only [List.isPrefixOf, Bool.and_true, beq_iff_eq, List.cons.injEq, exists_and_left,
      exists_eq', and_true]
    exact eq_comm

/-- Cleaning keeps a rooted path rooted. -/
theorem IsAbs_Clean (path : GoString) (h : IsAbs path = true) :
    IsAbs ( Clean path) = true := by
  obtain ⟨tail, rfl⟩ := (IsAbs_iff path).mp h
  unfold Clean
  simp only [h, if_true]
  simp [IsAbs, List.isPrefixOf]

theorem Join_pair (dir path : GoString) (h : IsAbs dir = true) :
    Join [dir, path] = Clean (dir ++ Separator :: path) := by
  obtain ⟨tail, rfl⟩ := (IsAbs_iff dir).mp h
  simp [Join, List.intercalate, List.intersperse]

theorem IsAbs_Join_pair (dir path : GoString) (h : IsAbs dir = true) :
    IsAbs (Join [dir, path]) = true := by
  rw [Join_pair dir path h]
  apply IsAbs_Clean
  obtain ⟨tail, rfl⟩ := (IsAbs_iff dir).mp h
  simp [IsAbs, List.isPrefixOf]

end Filepath

namespace Cmd

open Cloud (GoString lit)

/-- An absolute path is returned unchanged, whatever `ctx.Dir` is. -/
theorem AbsPath_of_IsAbs (ctx : Context) (path : GoString)
    (hp : Filepath.IsAbs path = true) : ctx.AbsPath path = path := by
  simp [Context.AbsPath, hp]

/-- A relative path is returned as `filepath.Join(ctx.Dir, path)`, whatever
`ctx.Dir` is. -/
theorem AbsPath_of_not_IsAbs (ctx : Context) (path : GoString)
    (hp : Filepath.IsAbs path = false) :
    ctx.AbsPath path = Filepath.Join [ctx.Dir, path] := by
  simp [Context.AbsPath, hp]

/-- When `ctx.Dir` is absolute, so is the result of `AbsPath`. -/
theorem IsAbs_AbsPath_of_IsAbs_Dir (ctx : Context) (path : GoString)
    (hdir : Filepath.IsAbs ctx.Dir = true) :
    Filepath.IsAbs (ctx.AbsPath path) = true := by
  unfold Context.AbsPath
  cases hp : Filepath.IsAbs path with
  | true => simpa using hp
  | false => simpa using Filepath.IsAbs_Join_pair ctx.Dir path hdir

/-- C11: the code at the input on which it misses the claim.  For a `Context`
whose `Dir` is the relative path `work`, `AbsPath` of the relative path
`log.txt` is `filepath.Join("work", "log.txt")`, that is `work/log.txt`, which
is not an absolute path, although `AbsPath` is documented to return an
absolute representation of the path. -/
theorem C11_relative_dir :
    Filepath.IsAbs (lit "log.txt") = false
      ∧ Context.AbsPath { Dir := lit "work" } (lit "log.txt")
          = Filepath.Join [lit "work", lit "log.txt"]
      ∧ Context.AbsPath { Dir := lit "work" } (lit "log.txt") = lit "work/log.txt"
      ∧ Filepath.IsAbs (Context.AbsPath { Dir := lit "work" } (lit "log.txt")) = false := by
  decide

/-- C12: the exit code of `Main` is determined by the first failure.  It is 2
exactly when `Parse(c, args)` fails, and then `c.Run` is not called; it is 1
exactly when `Parse` succeeds and `c.Run` returns a non-nil error; it is 0
exactly when both succeed; `Parse` is called first in every case and `c.Run`
at most once. -/
theorem C12_exit_code (c : Command) (args : List String) :
    ((Main c args).1 = 2 ↔ c.parse args ≠ none)
      ∧ (c.parse args ≠ none → Step.run ∉ (Main c args).2)
      ∧ ((Main c args).1 = 1 ↔ c.parse args = none ∧ c.run ≠ none)
      ∧ ((Main c args).1 = 0 ↔ c.parse args = none ∧ c.run = none)
      ∧ (Main c args).2.head? = some .parse
      ∧ (Main c args).2.count .run = (if c.parse args = none then 1 else 0) := by
  unfold Main
  cases hp : c.parse args <;> cases hr : c.run <;> simp [List.count_cons]

end Cmd
